import Mathlib

/-!
Verification of the TSP program (src/learning/docs/TSP-program.py, with the
prototype copy in src/learning/prototypes/tsp_manual.py).

Shallow embedding conventions:
* A Python City is a complex number used as a 2-D point; we model it as a
  pair of exact rationals (the idealization of floating point coordinates).
* A Python frozenset of cities is modelled as a duplicate-free List in its
  (arbitrary but fixed) iteration order; set operations become list
  operations on duplicate-free lists.
* The Euclidean distance function involves a square root, whose ideal model
  is a noncomputable real; every theorem below is therefore stated for an
  arbitrary distance function d into a linearly ordered cancellative
  additive monoid (with a symmetry hypothesis exactly where the source
  relies on symmetry).  The true Euclidean distance is one instance, and so
  is the computable witness function distSq used in concrete checks.
* Python functions that can raise are modelled with Option (or Except where
  the distinction between different exceptions matters); a Python while
  loop or unbounded recursion is modelled with an explicit fuel parameter,
  mirroring CPython's recursion limit, and theorems show the fuel is
  irrelevant once large enough.
* Python min(xs, key=f) returns the first element of xs attaining the
  minimal key; minBy below implements exactly that.
-/

namespace TSPSpec

/-- City models the Python complex number used as a 2-D point; x is the
real part and y the imaginary part of the complex value. -/
structure City where
  x : ℚ
  y : ℚ
deriving DecidableEq, Repr

/-- Tour is a list of cities visited in order (implicitly cyclic). -/
abbrev Tour : Type := List City

/-- distSq is a concrete computable symmetric distance function (the squared
Euclidean distance) used to instantiate the abstract distance parameter in
concrete witnesses. -/
def distSq (A B : City) : ℚ :=
  (A.x - B.x) * (A.x - B.x) + (A.y - B.y) * (A.y - B.y)

theorem distSq_symm : ∀ A B : City, distSq A B = distSq B A := by
  intro A B; unfold distSq; ring

section Metrics

variable {α : Type} [LinearOrderedCancelAddCommMonoid α]
variable {β : Type}

/-- minByAux folds the tail of a list keeping the element with the strictly
smallest key seen so far, starting from b; ties keep the earlier element,
exactly as Python's min. -/
def minByAux (f : β → α) (b : β) (l : List β) : β :=
  l.foldl (fun acc x => if f x < f acc then x else acc) b

/-- minBy models Python min(l, key=f): none on the empty list (Python raises
ValueError), otherwise the first element with minimal key. -/
def minBy (f : β → α) : List β → Option β
  | [] => none
  | b :: l => some (minByAux f b l)

/-- minByD is minBy with a default value for the (unreachable in context)
empty case, used where the source calls min on a provably nonempty
collection. -/
def minByD (f : β → α) (l : List β) (dflt : β) : β :=
  (minBy f l).getD dflt

theorem minByAux_mem (f : β → α) (b : β) (l : List β) :
    minByAux f b l = b ∨ minByAux f b l ∈ l := by
  induction l generalizing b with
  | nil => left; rfl
  | cons x xs ih =>
    unfold minByAux
    simp only [List.foldl_cons]
    by_cases h : f x < f b
    · simp only [if_pos h]
      rcases ih x with h' | h'
      · right; rw [minByAux] at h'; rw [h']; exact List.mem_cons_self x xs
      · right; rw [minByAux] at h'; exact List.mem_cons_of_mem x h'
    · simp only [if_neg h]
      rcases ih b with h' | h'
      · left; rw [minByAux] at h'; exact h'
      · right; rw [minByAux] at h'; exact List.mem_cons_of_mem x h'

theorem minByAux_le (f : β → α) (b : β) (l : List β) :
    f (minByAux f b l) ≤ f b ∧ ∀ y ∈ l, f (minByAux f b l) ≤ f y := by
  induction l generalizing b with
  | nil => exact ⟨le_refl _, by intro y hy; cases hy⟩
  | cons x xs ih =>
    unfold minByAux
    simp only [List.foldl_cons]
    by_cases h : f x < f b
    · simp only [if_pos h]
      rcases ih x with ⟨h1, h2⟩
      rw [minByAux] at h1 h2
      refine ⟨le_trans h1 (le_of_lt h), ?_⟩
      intro y hy
      rcases List.mem_cons.mp hy with rfl | hy
      · exact h1
      · exact h2 y hy
    · simp only [if_neg h]
      rcases ih b with ⟨h1, h2⟩
      rw [minByAux] at h1 h2
      refine ⟨h1, ?_⟩
      intro y hy
      rcases List.mem_cons.mp hy with rfl | hy
      · exact le_trans h1 (not_lt.mp h)
      · exact h2 y hy

theorem minBy_eq_none_iff (f : β → α) (l : List β) :
    minBy f l = none ↔ l = [] := by
  cases l <;> simp [minBy]

theorem minBy_mem (f : β → α) {l : List β} {x : β} (h : minBy f l = some x) :
    x ∈ l := by
  cases l with
  | nil => cases h
  | cons b t =>
    simp only [minBy, Option.some.injEq] at h
    rcases minByAux_mem f b t with h' | h'
    · rw [h] at h'; rw [h']; exact List.mem_cons_self b t
    · rw [h] at h'; exact List.mem_cons_of_mem b h'

theorem minBy_le (f : β → α) {l : List β} {x : β} (h : minBy f l = some x) :
    ∀ y ∈ l, f x ≤ f y := by
  cases l with
  | nil => cases h
  | cons b t =>
    simp only [minBy, Option.some.injEq] at h
    intro y hy
    rcases List.mem_cons.mp hy with rfl | hy
    · rw [← h]; exact (minByAux_le f y t).1
    · rw [← h]; exact (minByAux_le f b t).2 y hy

theorem minBy_isSome (f : β → α) {l : List β} (h : l ≠ []) :
    ∃ x, minBy f l = some x := by
  cases l with
  | nil => exact absurd rfl h
  | cons b t => exact ⟨minByAux f b t, rfl⟩

theorem minByD_mem (f : β → α) {l : List β} (dflt : β) (h : l ≠ []) :
    minByD f l dflt ∈ l := by
  rcases minBy_isSome f h with ⟨x, hx⟩
  unfold minByD; rw [hx]; exact minBy_mem f hx

theorem minByD_le (f : β → α) {l : List β} (dflt : β) (h : l ≠ []) :
    ∀ y ∈ l, f (minByD f l dflt) ≤ f y := by
  rcases minBy_isSome f h with ⟨x, hx⟩
  unfold minByD; rw [hx]; exact minBy_le f hx

variable (d : City → City → α)

/-- lastD l c is the last element of l, or c when l is empty; it models the
Python expression l[-1] with an irrelevant default. -/
def lastD {γ : Type} : List γ → γ → γ
  | [], c => c
  | b :: l, _ => lastD l b

theorem lastD_append_cons {γ : Type} (xs ys : List γ) (b c : γ) :
    lastD (xs ++ b :: ys) c = lastD ys b := by
  induction xs generalizing c with
  | nil => rfl
  | cons x xs ih => rw [List.cons_append]; exact ih x

theorem lastD_irrel {γ : Type} (b : γ) (ys : List γ) (c c' : γ) :
    lastD (b :: ys) c = lastD (b :: ys) c' := rfl

theorem lastD_concat {γ : Type} (xs : List γ) (b c : γ) :
    lastD (xs ++ [b]) c = b := by
  rw [lastD_append_cons]; rfl

theorem lastD_reverse {γ : Type} (b : γ) (ys : List γ) (c : γ) :
    lastD ((b :: ys).reverse) c = b := by
  rw [List.reverse_cons, lastD_concat]

theorem lastD_mem {γ : Type} : ∀ (l : List γ) (c : γ), l ≠ [] → lastD l c ∈ l
  | [], _, h => absurd rfl h
  | [b], c, _ => List.mem_singleton.mpr rfl
  | b :: b' :: l, c, _ => List.mem_cons_of_mem b (lastD_mem (b' :: l) b (List.cons_ne_nil b' l))

theorem perm_cons_erase_beq {γ : Type} [BEq γ] [LawfulBEq γ] {a : γ} {l : List γ}
    (h : a ∈ l) : List.Perm l (a :: l.erase a) := by
  induction l with
  | nil => cases h
  | cons x xs ih =>
    by_cases hax : a = x
    · subst hax
      rw [List.erase_cons_head]
    · rcases List.mem_cons.mp h with h' | h'
      · exact absurd h' hax
      · rw [List.erase_cons_tail (by simp [Ne.symm hax])]
        exact ((ih h').cons x).trans (List.Perm.swap a x _)

theorem headD_reverse {γ : Type} (b : γ) (ys : List γ) (c : γ) :
    ((b :: ys).reverse).headD c = lastD (b :: ys) c := by
  induction ys generalizing b c with
  | nil => rfl
  | cons y ys ih =>
    rw [show (b :: y :: ys).reverse = (y :: ys).reverse ++ [b] by simp]
    have hib := ih y b
    rcases h : (y :: ys).reverse with _ | ⟨z, zs⟩
    · exact absurd h (by simp)
    · rw [h] at hib
      rw [List.cons_append]
      show z = lastD (y :: ys) b
      rw [← hib]
      rfl

/-- segment_length: the total of d between each pair of consecutive cities
of the segment, i.e. the sum over i of d(s[i], s[i-1]) for 1 ≤ i < len(s),
written as structural recursion on the list. -/
def segment_length : Tour → α
  | [] => 0
  | [_] => 0
  | a :: b :: rest => d b a + segment_length (b :: rest)

/-- tour_length: the total of d over each link of the tour including the
link from the last city back to the first; the i = 0 term of the source's
sum is d(tour[0], tour[-1]) — d of the head and the last element, written
lastD rest h — and the remaining terms are segment_length. -/
def tour_length : Tour → α
  | [] => 0
  | h :: rest => d h (lastD rest h) + segment_length d (h :: rest)

/-- segment_length over an append decomposes into the two parts plus the
single link from the last city of the first part to the head of the
second. -/
theorem segment_length_append (a b : City) (xs ys : List City) :
    segment_length d ((a :: xs) ++ b :: ys) =
      segment_length d (a :: xs) + d b (lastD xs a) + segment_length d (b :: ys) := by
  induction xs generalizing a with
  | nil => simp [segment_length, lastD]
  | cons a' xs' ih =>
    rw [List.cons_append, List.cons_append]
    show d a' a + segment_length d (a' :: (xs' ++ b :: ys)) = _
    rw [show a' :: (xs' ++ b :: ys) = (a' :: xs') ++ b :: ys from rfl, ih a']
    show _ = d a' a + segment_length d (a' :: xs') + d b (lastD xs' a') + segment_length d (b :: ys)
    rw [add_assoc, add_assoc, add_assoc]

/-- segment_length of a one-city extension at the right end. -/
theorem segment_length_concat (a b : City) (xs : List City) :
    segment_length d ((a :: xs) ++ [b]) =
      segment_length d (a :: xs) + d b (lastD xs a) := by
  rw [segment_length_append d a b xs []]
  show _ + segment_length d [b] = _
  rw [show segment_length d [b] = 0 from rfl, add_zero]

/-- tour_length of a nonempty tour unfolds to the closing link plus
segment_length. -/
theorem tour_length_cons (h : City) (rest : List City) :
    tour_length d (h :: rest) = d h (lastD rest h) + segment_length d (h :: rest) := rfl

/-- tour_length is invariant under rotation of the tour: this is the key
fact letting the exhaustive solver fix the first city. -/
theorem tour_length_rotate (xs ys : List City) :
    tour_length d (xs ++ ys) = tour_length d (ys ++ xs) := by
  rcases xs with _ | ⟨a, xs⟩
  · rw [List.nil_append, List.append_nil]
  rcases ys with _ | ⟨b, ys⟩
  · rw [List.append_nil, List.nil_append]
  rw [show (a :: xs) ++ b :: ys = a :: (xs ++ b :: ys) from rfl, tour_length_cons]
  rw [show (b :: ys) ++ a :: xs = b :: (ys ++ a :: xs) from rfl, tour_length_cons]
  rw [lastD_append_cons, lastD_append_cons]
  rw [show a :: (xs ++ b :: ys) = (a :: xs) ++ b :: ys from rfl, segment_length_append]
  rw [show b :: (ys ++ a :: xs) = (b :: ys) ++ a :: xs from rfl, segment_length_append]
  abel

/-- valid_tour: does the tour visit every city of the set exactly once?
Counter equality in the source is multiset equality. -/
def valid_tour (tour : Tour) (cities : List City) : Bool :=
  decide (Multiset.ofList tour = Multiset.ofList cities)

theorem valid_tour_iff_perm (tour : Tour) (cities : List City) :
    valid_tour tour cities = true ↔ List.Perm tour cities := by
  unfold valid_tour
  rw [decide_eq_true_iff]
  exact ⟨Quotient.exact, fun h => Quot.sound h⟩

end Metrics

section Sampling

/-!
Deterministic sampling (random_cities).  The global state of the Python
random module is modelled as a pair (seed value, draw counter); random.seed
overwrites it, and each randrange call consumes one draw.  The pseudorandom
core (the Mersenne Twister) and the hash of the (n, seed) tuple are
modelled as arbitrary functions prand and pyHash: nothing proved below
depends on their values.
-/

/-- RandState is the state of the random module: the seed value last set
and the number of draws made since. -/
abbrev RandState : Type := ℕ × ℕ

variable (pyHash : ℕ → ℕ → ℕ) (prand : ℕ → ℕ → ℕ)

/-- pyRandSeed models random.seed(v): it resets the stream position. -/
def pyRandSeed (v : ℕ) : RandState := (v, 0)

/-- pyRandrange models random.randrange(w) for w ≥ 1: the next raw draw of
the stream reduced mod w, advancing the state. -/
def pyRandrange (st : RandState) (w : ℕ) : ℕ × RandState :=
  (prand st.1 st.2 % w, (st.1, st.2 + 1))

/-- citySamples draws n cities, each as an x draw in [0, width) followed by
a y draw in [0, height), mirroring the generator inside random_cities. -/
def citySamples (width height : ℕ) : ℕ → RandState → RandState × List City
  | 0, st => (st, [])
  | n + 1, st =>
    let xs := pyRandrange prand st width
    let ys := pyRandrange prand xs.2 height
    let rest := citySamples width height n ys.2
    (rest.1, City.mk (xs.1 : ℚ) (ys.1 : ℚ) :: rest.2)

/-- random_cities seeds the stream with hash((n, seed)) and then collects n
sampled points into a set (modelled as dedup of the sample list, keeping
first occurrences). -/
def random_cities (st : RandState) (n : ℕ) (seed : ℕ := 1234)
    (width : ℕ := 9999) (height : ℕ := 6666) : RandState × List City :=
  let st1 := pyRandSeed (pyHash n seed)
  let pair := citySamples prand width height n st1
  (pair.1, pair.2.dedup)

/-- citySamples_length: the raw sample list always has exactly n points. -/
theorem citySamples_length (prand : ℕ → ℕ → ℕ) (width height n : ℕ) (st : RandState) :
    (citySamples prand width height n st).2.length = n := by
  induction n generalizing st with
  | zero => rfl
  | succ k ih => simp [citySamples, ih]

end Sampling

/-- prand0 is one concrete pseudorandom core used to instantiate the
abstract stream in concrete computations. -/
def prand0 : ℕ → ℕ → ℕ := fun s i => s + i

/-- pyHash0 is one concrete hash function for the (n, seed) tuple used to
instantiate the abstract hash in concrete computations. -/
def pyHash0 : ℕ → ℕ → ℕ := fun a b => a + b

/-- Claim C7 (confirmed): random_cities re-seeds the pseudorandom stream
from (n, seed) on every call, so two calls with identical arguments return
identical Cities sets regardless of the incoming stream state: the result
does not depend on the state of the random module before the call. -/
theorem random_cities_deterministic (pyHash prand : ℕ → ℕ → ℕ)
    (st1 st2 : RandState) (n seed width height : ℕ) :
    (random_cities pyHash prand st1 n seed width height).2 =
      (random_cities pyHash prand st2 n seed width height).2 := rfl

/-- Claim C6, counterexample: with width = height = 1 every sampled point is
(0, 0) whatever the pseudorandom stream does (randrange(1) is always 0), so
for n = 2 the returned set — a frozenset, which collapses duplicates — has 1
city, not exactly 2 as claimed. -/
theorem random_cities_card_cex :
    ((random_cities pyHash0 prand0 (0, 0) 2 0 1 1).2).length ≠ 2 := by decide

/-- Claim C6 (amended): random_cities(n, seed, width, height) returns at
most n cities, and exactly n precisely when the n sampled coordinate pairs
are pairwise distinct; duplicates among the samples are collapsed by the
set constructor. -/
theorem random_cities_card (pyHash prand : ℕ → ℕ → ℕ) (st : RandState)
    (n seed width height : ℕ) :
    ((random_cities pyHash prand st n seed width height).2).length ≤ n ∧
    ((citySamples prand width height n (pyRandSeed (pyHash n seed))).2.Nodup →
      ((random_cities pyHash prand st n seed width height).2).length = n) := by
  constructor
  · calc ((random_cities pyHash prand st n seed width height).2).length
        ≤ (citySamples prand width height n (pyRandSeed (pyHash n seed))).2.length :=
          List.Sublist.length_le (List.dedup_sublist _)
      _ = n := citySamples_length prand width height n _
  · intro hnd
    show (citySamples prand width height n (pyRandSeed (pyHash n seed))).2.dedup.length = n
    rw [List.Nodup.dedup hnd]
    exact citySamples_length prand width height n _

/-- Witness for the amended claim C6: at n = 2, width = 3, height = 1 with
the concrete stream prand0 the two sampled points are distinct, and the
returned set has exactly 2 cities. -/
theorem random_cities_card_witness :
    (citySamples prand0 3 1 2 (pyRandSeed (pyHash0 2 0))).2.Nodup ∧
    ((random_cities pyHash0 prand0 (0, 0) 2 0 3 1).2).length = 2 :=
  ⟨by decide, (random_cities_card pyHash0 prand0 (0, 0) 2 0 3 1).2 (by decide)⟩

section Construction

variable {α : Type} [LinearOrderedCancelAddCommMonoid α] (d : City → City → α)

/-- first models Python first(collection) = next(iter(collection)): the
head of the iteration order, None-as-error on an empty collection. -/
def first {γ : Type} (collection : List γ) : Option γ := collection.head?

/-- possible_tours: all permutations of the cities with the first city held
fixed (start, *others = cities); errors on an empty set.  The enumeration
order of the permutations differs from itertools, which only affects which
of several equally short tours min returns, never membership or the
minimal length. -/
def possible_tours (cities : List City) : Option (List Tour) :=
  match cities with
  | [] => none
  | start :: others => some (others.permutations.map (fun perm => start :: perm))

/-- shortest: the tour with the smallest tour_length (Python min with
key=tour_length, an error on an empty collection). -/
def shortest (tours : List Tour) : Option Tour := minBy (tour_length d) tours

/-- exhaustive_tsp: generate all possible tours and pick the shortest. -/
def exhaustive_tsp (cities : List City) : Option Tour :=
  match possible_tours cities with
  | none => none
  | some tours => shortest d tours

/-- nearest_neighbor: the city of cities nearest to A (min with key
distance to A). -/
def nearest_neighbor (A : City) (cities : List City) : Option City :=
  minBy (fun C => d C A) cities

/-- nearest_loop is the while loop of nearest_tsp: extend the partial tour
by the nearest unvisited neighbor of its last city while unvisited cities
remain.  The fuel parameter bounds the number of iterations; the loop runs
exactly length-of-unvisited times, so any fuel at least that is exact. -/
def nearest_loop : ℕ → Tour → City → List City → Tour
  | 0, tour, _, _ => tour
  | fuel + 1, tour, lastC, unvisited =>
    match nearest_neighbor d lastC unvisited with
    | none => tour
    | some c => nearest_loop fuel (tour ++ [c]) c (unvisited.erase c)

/-- resolve_start models the expression start or first(cities) on the
first line of nearest_tsp: a Python complex number is falsy exactly when
it equals 0, i.e. when the city is the origin (0, 0), so a start at the
origin is silently replaced by the set's first city, as is an absent
start. -/
def resolve_start (cities : List City) : Option City → Option City
  | none => first cities
  | some s => if s = City.mk 0 0 then first cities else some s

/-- nearest_tsp: start from the resolved start city and repeatedly extend
to the nearest unvisited neighbor; unvisited is set(cities) - start. -/
def nearest_tsp (cities : List City) (start : Option City := none) : Option Tour :=
  match resolve_start cities start with
  | none => none
  | some s => some (nearest_loop d cities.length [s] s (cities.erase s))

/-- sample models random.sample after seeding: a list of min(n, len)
elements of the population (an error for negative n).  The pseudorandom
choice of which elements is modelled as taking the first ones of the
iteration order; nothing proved below depends on which elements are
chosen. -/
def sample (population : List City) (n : ℤ) : Option (List City) :=
  if min n (population.length : ℤ) < 0 then none
  else some (population.take (min n (population.length : ℤ)).toNat)

/-- rep_tours runs nearest_tsp from each sampled start city in turn,
propagating any failure, mirroring the generator expression inside
rep_nearest_tsp. -/
def rep_tours (cities : List City) : List City → Option (List Tour)
  | [] => some []
  | s :: rest =>
    match nearest_tsp d cities (some s), rep_tours cities rest with
    | some t, some ts => some (t :: ts)
    | _, _ => none

/-- rep_nearest_tsp: repeat nearest_tsp from k sampled start cities and
pick the shortest resulting tour. -/
def rep_nearest_tsp (cities : List City) (k : ℤ := 10) : Option Tour :=
  match sample cities k with
  | none => none
  | some starts =>
    match rep_tours d cities starts with
    | none => none
    | some tours => shortest d tours

theorem nearest_loop_perm :
    ∀ (fuel : ℕ) (tour : Tour) (lastC : City) (unvisited : List City),
      unvisited.length ≤ fuel →
      List.Perm (nearest_loop d fuel tour lastC unvisited) (tour ++ unvisited) := by
  intro fuel
  induction fuel with
  | zero =>
    intro tour lastC unvisited h
    rw [List.length_eq_zero.mp (Nat.le_zero.mp h), List.append_nil]
    exact List.Perm.refl tour
  | succ f ih =>
    intro tour lastC unvisited h
    rw [nearest_loop]
    rcases hm : nearest_neighbor d lastC unvisited with _ | c
    · rw [(minBy_eq_none_iff _ _).mp hm, List.append_nil]
    · have hc : c ∈ unvisited := minBy_mem _ hm
      have hlen : (unvisited.erase c).length ≤ f := by
        have := List.length_erase_of_mem hc
        have hpos : 0 < unvisited.length := List.length_pos.mpr (List.ne_nil_of_mem hc)
        omega
      refine (ih (tour ++ [c]) c (unvisited.erase c) hlen).trans ?_
      rw [List.append_assoc, List.singleton_append]
      exact List.Perm.append_left tour (List.perm_cons_erase hc).symm

theorem nearest_loop_head :
    ∀ (fuel : ℕ) (tour : Tour) (lastC : City) (unvisited : List City),
      tour ≠ [] → (nearest_loop d fuel tour lastC unvisited).head? = tour.head? := by
  intro fuel
  induction fuel with
  | zero => intro tour lastC unvisited _; rfl
  | succ f ih =>
    intro tour lastC unvisited ht
    rw [nearest_loop]
    rcases hm : nearest_neighbor d lastC unvisited with _ | c
    · rfl
    · rw [ih (tour ++ [c]) c _ (by simp)]
      rcases tour with _ | ⟨x, t⟩
      · exact absurd rfl ht
      · rfl

/-- nearest_tsp always returns a valid tour when the cities are a nonempty
set and the requested start (when given) is one of the cities. -/
theorem nearest_tsp_valid (cities : List City) (h : cities ≠ [])
    (st : Option City) (hst : ∀ s, st = some s → s ∈ cities) :
    ∃ t, nearest_tsp d cities st = some t ∧ List.Perm t cities := by
  rcases hh : cities.head? with _ | c0
  · exact absurd (List.head?_eq_none_iff.mp hh) h
  have hc0 : c0 ∈ cities := List.mem_of_mem_head? (by rw [hh]; rfl)
  have key : ∀ s, s ∈ cities →
      List.Perm (nearest_loop d cities.length [s] s (cities.erase s)) cities := by
    intro s hs
    have hlen : (cities.erase s).length ≤ cities.length := List.length_erase_le s cities
    refine (nearest_loop_perm d cities.length [s] s (cities.erase s) hlen).trans ?_
    rw [List.singleton_append]
    exact (List.perm_cons_erase hs).symm
  have hfirst : first cities = some c0 := by unfold first; rw [hh]
  rcases st with _ | s
  · have hro : resolve_start cities none = some c0 := hfirst
    have hres : nearest_tsp d cities none =
        some (nearest_loop d cities.length [c0] c0 (cities.erase c0)) := by
      unfold nearest_tsp
      rw [hro]
    exact ⟨_, hres, key c0 hc0⟩
  · by_cases hz : s = City.mk 0 0
    · have hro : resolve_start cities (some s) = some c0 := by
        show (if s = City.mk 0 0 then first cities else some s) = some c0
        rw [if_pos hz]
        exact hfirst
      have hres : nearest_tsp d cities (some s) =
          some (nearest_loop d cities.length [c0] c0 (cities.erase c0)) := by
        unfold nearest_tsp
        rw [hro]
      exact ⟨_, hres, key c0 hc0⟩
    · have hro : resolve_start cities (some s) = some s := by
        show (if s = City.mk 0 0 then first cities else some s) = some s
        rw [if_neg hz]
      have hres : nearest_tsp d cities (some s) =
          some (nearest_loop d cities.length [s] s (cities.erase s)) := by
        unfold nearest_tsp
        rw [hro]
      exact ⟨_, hres, key s (hst s rfl)⟩

/-- rep_tours succeeds on any list of starts drawn from a nonempty set and
returns one valid tour per start. -/
theorem rep_tours_valid (cities : List City) (h : cities ≠ []) :
    ∀ starts : List City, (∀ s ∈ starts, s ∈ cities) →
      ∃ ts, rep_tours d cities starts = some ts ∧ ts.length = starts.length ∧
        ∀ t ∈ ts, List.Perm t cities := by
  intro starts
  induction starts with
  | nil => exact fun _ => ⟨[], rfl, rfl, by simp⟩
  | cons s rest ih =>
    intro hsub
    obtain ⟨t, ht, hpt⟩ := nearest_tsp_valid d cities h (some s)
      (fun x hx => by cases hx; exact hsub s (List.mem_cons_self s rest))
    obtain ⟨ts, hts, hlen, hall⟩ := ih (fun x hx => hsub x (List.mem_cons_of_mem s hx))
    refine ⟨t :: ts, ?_, by simp [hlen], ?_⟩
    · rw [rep_tours, ht, hts]
    · intro t0 ht0
      rcases List.mem_cons.mp ht0 with rfl | h0
      · exact hpt
      · exact hall t0 h0

/-- rep_nearest_tsp returns a valid tour whenever the set is nonempty and
the repetition count k is at least 1. -/
theorem rep_nearest_tsp_valid (cities : List City) (h : cities ≠ []) (k : ℤ) (hk : 1 ≤ k) :
    ∃ t, rep_nearest_tsp d cities k = some t ∧ List.Perm t cities := by
  have hpos : 0 < cities.length := List.length_pos.mpr h
  have hlen1 : (1 : ℤ) ≤ (cities.length : ℤ) := by exact_mod_cast hpos
  have hmin : 1 ≤ min k (cities.length : ℤ) := le_min hk hlen1
  have hsamp : sample cities k =
      some (cities.take (min k (cities.length : ℤ)).toNat) := by
    unfold sample
    rw [if_neg (by omega)]
  obtain ⟨ts, hts, htslen, hall⟩ :=
    rep_tours_valid d cities h (cities.take (min k (cities.length : ℤ)).toNat)
      (fun s hs => List.mem_of_mem_take hs)
  have htsne : ts ≠ [] := by
    intro h0
    rw [h0] at htslen
    have hone : 1 ≤ (min k (cities.length : ℤ)).toNat := by omega
    have := List.length_take (min k (cities.length : ℤ)).toNat cities
    rw [← htslen] at this
    simp only [List.length_nil] at this
    omega
  rcases hsh : shortest d ts with _ | t
  · exact absurd ((minBy_eq_none_iff _ _).mp hsh) htsne
  refine ⟨t, ?_, hall t (minBy_mem _ hsh)⟩
  unfold rep_nearest_tsp
  rw [hsamp]
  show (match rep_tours d cities (cities.take (min k (cities.length : ℤ)).toNat) with
    | none => none
    | some tours => shortest d tours) = some t
  rw [hts]
  show shortest d ts = some t
  exact hsh

end Construction

/-- Claim C9, counterexample: the origin (0, 0) is a Python-falsy complex
number, so requesting it as the start of nearest_tsp silently falls back
to the set's first city: on the set iterated as [(1,0), (0,0)] the
returned tour begins at (1,0), not at the requested start (0,0). -/
theorem nearest_tsp_start_cex :
    City.mk 0 0 ∈ [City.mk 1 0, City.mk 0 0] ∧
    nearest_tsp distSq [City.mk 1 0, City.mk 0 0] (some (City.mk 0 0)) =
      some [City.mk 1 0, City.mk 0 0] ∧
    City.mk 1 0 ≠ City.mk 0 0 := by
  refine ⟨by decide, ?_, by decide⟩
  decide

/-- Claim C9 (amended): for every distance function, every Cities set and
every start city in it other than the origin (0, 0), the tour returned by
nearest_tsp(cities, start) begins at start; a start at the origin is
treated as absent by the truthiness test and replaced by the set's first
city. -/
theorem nearest_tsp_start {α : Type} [LinearOrderedCancelAddCommMonoid α]
    (d : City → City → α) (cities : List City) (s : City)
    (hs : s ∈ cities) (hz : s ≠ City.mk 0 0) :
    ∃ t, nearest_tsp d cities (some s) = some t ∧ t.head? = some s := by
  have hro : resolve_start cities (some s) = some s := by
    show (if s = City.mk 0 0 then first cities else some s) = some s
    rw [if_neg hz]
  have hres : nearest_tsp d cities (some s) =
      some (nearest_loop d cities.length [s] s (cities.erase s)) := by
    unfold nearest_tsp
    rw [hro]
  exact ⟨_, hres, nearest_loop_head d cities.length [s] s (cities.erase s) (by simp)⟩

/-- Witness for the amended claim C9 at a concrete instance: start (1,0)
is in the set and is not the origin, and the returned tour begins at it. -/
theorem nearest_tsp_start_witness :
    (City.mk 1 0 ∈ [City.mk 0 0, City.mk 1 0] ∧ City.mk 1 0 ≠ City.mk 0 0) ∧
    ∃ t, nearest_tsp distSq [City.mk 0 0, City.mk 1 0] (some (City.mk 1 0)) = some t ∧
      t.head? = some (City.mk 1 0) :=
  ⟨⟨by decide, by decide⟩,
    nearest_tsp_start distSq [City.mk 0 0, City.mk 1 0] (City.mk 1 0) (by decide) (by decide)⟩

section HeldKarp

variable {α : Type} [LinearOrderedCancelAddCommMonoid α] (d : City → City → α)

/-- shortest_segment A Bs C: the shortest segment starting at A, going
through all of Bs, ending at C; [A, C] when Bs is empty, otherwise the
minimum over the choices of the city B placed just before C.  The fuel
argument bounds the recursion depth (the recursion consumes one city of Bs
per level, so any fuel at least the size of Bs is exact; the second match
arm is unreachable then). -/
def shortest_segment : ℕ → City → List City → City → List City
  | _, A, [], C => [A, C]
  | 0, A, _ :: _, C => [A, C]
  | fuel + 1, A, B0 :: Bs', C =>
      minByD (segment_length d)
        ((B0 :: Bs').map (fun B => shortest_segment fuel A ((B0 :: Bs').erase B) B ++ [C]))
        [A, C]

/-- held_karp_tsp: with A the first city, take for each end city C of
cities - {A} the shortest segment from A through cities - {A, C} to C, and
return the one closing into the shortest tour.  The memo clearing of the
source is treated in the stateful model below; this is the pure value it
computes.  For the duplicate-free list A :: rest modelling the frozenset,
cities - {A} is rest and cities - {A, C} is rest.erase C. -/
def held_karp_tsp (cities : List City) : Option Tour :=
  match cities with
  | [] => none
  | A :: rest =>
      shortest d (rest.map (fun C => shortest_segment d (A :: rest).length A (rest.erase C) C))

theorem shortest_segment_shape :
    ∀ (fuel : ℕ) (A : City) (Bs : List City) (C : City), Bs.length ≤ fuel →
      ∃ m, List.Perm m Bs ∧ shortest_segment d fuel A Bs C = A :: (m ++ [C]) := by
  intro fuel
  induction fuel with
  | zero =>
    intro A Bs C hf
    rw [List.length_eq_zero.mp (Nat.le_zero.mp hf)]
    exact ⟨[], List.Perm.refl [], rfl⟩
  | succ f ih =>
    intro A Bs C hf
    rcases Bs with _ | ⟨B0, Bs'⟩
    · exact ⟨[], List.Perm.refl [], rfl⟩
    · have hne : ((B0 :: Bs').map
          (fun B => shortest_segment d f A ((B0 :: Bs').erase B) B ++ [C])) ≠ [] := by
        simp
      have hmem := minByD_mem (segment_length d) [A, C] hne
      rcases List.mem_map.mp hmem with ⟨B, hB, hBe⟩
      have hlen : ((B0 :: Bs').erase B).length ≤ f := by
        have hle := List.length_erase_of_mem hB
        simp only [List.length_cons] at hf hle ⊢
        omega
      rcases ih A ((B0 :: Bs').erase B) B hlen with ⟨m', hm', hse⟩
      refine ⟨m' ++ [B], ?_, ?_⟩
      · refine List.Perm.trans (List.perm_append_comm) ?_
        rw [List.singleton_append]
        exact List.Perm.trans (hm'.cons B) (List.perm_cons_erase hB).symm
      · show minByD _ _ _ = _
        rw [← hBe, hse]
        simp

theorem shortest_segment_min :
    ∀ (fuel : ℕ) (A : City) (Bs : List City) (C : City), Bs.length ≤ fuel → Bs.Nodup →
      ∀ m, List.Perm m Bs →
        segment_length d (shortest_segment d fuel A Bs C) ≤
          segment_length d (A :: (m ++ [C])) := by
  intro fuel
  induction fuel with
  | zero =>
    intro A Bs C hf _ m hm
    have hBs := List.length_eq_zero.mp (Nat.le_zero.mp hf)
    subst hBs
    rw [hm.eq_nil]
    exact le_refl _
  | succ f ih =>
    intro A Bs C hf hnd m hm
    rcases hBs : Bs with _ | ⟨B0, Bs'⟩
    · subst hBs
      rw [hm.eq_nil]
      exact le_refl _
    · subst hBs
      have hmne : m ≠ [] := by
        intro hm0
        rw [hm0] at hm
        exact List.cons_ne_nil B0 Bs' hm.symm.eq_nil
      set B := m.getLast hmne with hBdef
      have hmdec : m.dropLast ++ [B] = m := List.dropLast_append_getLast hmne
      have hBm : B ∈ m := by
        rw [← hmdec]; exact List.mem_append.mpr (Or.inr (List.mem_singleton.mpr rfl))
      have hBBs : B ∈ B0 :: Bs' := hm.mem_iff.mp hBm
      have hmnd : m.Nodup := (hm.nodup_iff).mpr hnd
      have hBnotin : B ∉ m.dropLast := by
        intro hin
        rw [← hmdec] at hmnd
        rcases List.nodup_append.mp hmnd with ⟨_, _, hdisj⟩
        exact hdisj hin (List.mem_singleton.mpr rfl)
      have herase : m.erase B = m.dropLast := by
        conv_lhs => rw [← hmdec]
        rw [List.erase_append_right _ hBnotin]
        simp
      have hm₀ : List.Perm m.dropLast ((B0 :: Bs').erase B) := by
        rw [← herase]
        exact hm.erase B
      have hlen : ((B0 :: Bs').erase B).length ≤ f := by
        have hle := List.length_erase_of_mem hBBs
        simp only [List.length_cons] at hf hle ⊢
        omega
      have hndE : ((B0 :: Bs').erase B).Nodup := hnd.erase B
      -- the candidate segment ending the intermediates at B realizes the bound
      have hcand :
          shortest_segment d f A ((B0 :: Bs').erase B) B ++ [C] ∈
            ((B0 :: Bs').map (fun B => shortest_segment d f A ((B0 :: Bs').erase B) B ++ [C])) :=
        List.mem_map.mpr ⟨B, hBBs, rfl⟩
      have hminle := minByD_le (segment_length d) [A, C] (by simp) _ hcand
      rcases shortest_segment_shape d f A ((B0 :: Bs').erase B) B hlen with ⟨m', hm', hse⟩
      have hcandlen :
          segment_length d (shortest_segment d f A ((B0 :: Bs').erase B) B ++ [C]) =
            segment_length d (shortest_segment d f A ((B0 :: Bs').erase B) B) + d C B := by
        rw [hse]
        rw [show A :: (m' ++ [B]) ++ [C] = (A :: (m' ++ [B])) ++ [C] from rfl]
        rw [segment_length_concat, lastD_concat]
      have hih := ih A ((B0 :: Bs').erase B) B hlen hndE m.dropLast hm₀
      have htarget :
          segment_length d (A :: (m ++ [C])) =
            segment_length d (A :: (m.dropLast ++ [B])) + d C B := by
        conv_lhs => rw [← hmdec]
        rw [show A :: ((m.dropLast ++ [B]) ++ [C]) = (A :: (m.dropLast ++ [B])) ++ [C] from rfl]
        rw [segment_length_concat, lastD_concat]
      calc segment_length d (shortest_segment d (f + 1) A (B0 :: Bs') C)
          ≤ segment_length d (shortest_segment d f A ((B0 :: Bs').erase B) B ++ [C]) := hminle
        _ = segment_length d (shortest_segment d f A ((B0 :: Bs').erase B) B) + d C B := hcandlen
        _ ≤ segment_length d (A :: (m.dropLast ++ [B])) + d C B := add_le_add_right hih _
        _ = segment_length d (A :: (m ++ [C])) := htarget.symm

/-- exhaustive_tsp on a nonempty set returns a first-city-fixed permutation
of minimal tour_length among all first-city-fixed permutations. -/
theorem exhaustive_tsp_spec (start : City) (others : List City) :
    ∃ te, exhaustive_tsp d (start :: others) = some te ∧
      (∃ p, List.Perm p others ∧ te = start :: p) ∧
      (∀ p, List.Perm p others → tour_length d te ≤ tour_length d (start :: p)) := by
  have hmem : others ∈ others.permutations := List.mem_permutations.mpr (List.Perm.refl others)
  have hne2 : (others.permutations.map (fun perm => start :: perm)) ≠ [] := by
    simp only [ne_eq, List.map_eq_nil_iff]
    exact List.ne_nil_of_mem hmem
  rcases minBy_isSome (tour_length d) hne2 with ⟨te, hte⟩
  have hmem2 := minBy_mem _ hte
  refine ⟨te, ?_, ?_, ?_⟩
  · show exhaustive_tsp d (start :: others) = some te
    unfold exhaustive_tsp possible_tours shortest
    exact hte
  · rcases List.mem_map.mp hmem2 with ⟨p, hp, hpe⟩
    exact ⟨p, List.mem_permutations.mp hp, hpe.symm⟩
  · intro p hp
    exact minBy_le _ hte _ (List.mem_map.mpr ⟨p, List.mem_permutations.mpr hp, rfl⟩)

/-- tour_length of a segment from A to C written as closing link plus
segment_length. -/
theorem tour_length_segment (A C : City) (m : List City) :
    tour_length d (A :: (m ++ [C])) = d A C + segment_length d (A :: (m ++ [C])) := by
  rw [tour_length_cons, lastD_concat]

/-- Claim C2 (confirmed, proved for every size at least 2, hence in
particular for at most 8 as claimed): on a duplicate-free Cities set of
between 2 and 8 cities, held_karp_tsp and exhaustive_tsp both succeed,
their tours have equal tour_length, and this common value is minimal over
every permutation of the cities. -/
theorem held_karp_matches_exhaustive (cities : List City)
    (hnd : cities.Nodup) (h2 : 2 ≤ cities.length) (h8 : cities.length ≤ 8) :
    ∃ th te, held_karp_tsp d cities = some th ∧ exhaustive_tsp d cities = some te ∧
      tour_length d th = tour_length d te ∧
      ∀ p, List.Perm p cities → tour_length d te ≤ tour_length d p := by
  rcases cities with _ | ⟨A, rest⟩
  · simp at h2
  have hrest_ne : rest ≠ [] := by
    intro h
    rw [h] at h2
    simp at h2
  have hndR : rest.Nodup := (List.nodup_cons.mp hnd).2
  have hcne : (rest.map
      (fun C => shortest_segment d (A :: rest).length A (rest.erase C) C)) ≠ [] := by
    simp only [ne_eq, List.map_eq_nil_iff]
    exact hrest_ne
  rcases minBy_isSome (tour_length d) hcne with ⟨th, hth⟩
  have hhk : held_karp_tsp d (A :: rest) = some th := by
    unfold held_karp_tsp shortest
    exact hth
  rcases exhaustive_tsp_spec d A rest with ⟨te, hte, ⟨p0, hp0, hte_eq⟩, hte_min⟩
  have fuel_ok : ∀ C : City, (rest.erase C).length ≤ (A :: rest).length := by
    intro C
    calc (rest.erase C).length ≤ rest.length := List.length_erase_le C rest
      _ ≤ (A :: rest).length := by simp
  -- the Held-Karp tour is one of the first-city-fixed permutations
  have hth_mem := minBy_mem _ hth
  rcases List.mem_map.mp hth_mem with ⟨C, hC, hth_eq⟩
  rcases shortest_segment_shape d (A :: rest).length A (rest.erase C) C (fuel_ok C)
    with ⟨m, hm, hshape⟩
  have hth_form : th = A :: (m ++ [C]) := by rw [← hth_eq, hshape]
  have hmC : List.Perm (m ++ [C]) rest := by
    refine List.Perm.trans List.perm_append_comm ?_
    rw [List.singleton_append]
    exact List.Perm.trans (hm.cons C) (List.perm_cons_erase hC).symm
  -- first inequality: the exhaustive minimum is at most the Held-Karp tour
  have h1 : tour_length d te ≤ tour_length d th := by
    rw [hth_form]
    exact hte_min (m ++ [C]) hmC
  -- second inequality: the Held-Karp minimum is at most the exhaustive tour
  have h2' : tour_length d th ≤ tour_length d te := by
    have hp0ne : p0 ≠ [] := by
      intro h
      rw [h] at hp0
      exact hrest_ne hp0.symm.eq_nil
    set Cc := p0.getLast hp0ne with hCc
    have hdec : p0.dropLast ++ [Cc] = p0 := List.dropLast_append_getLast hp0ne
    have hCcp : Cc ∈ p0 := by
      rw [← hdec]
      exact List.mem_append.mpr (Or.inr (List.mem_singleton.mpr rfl))
    have hCcR : Cc ∈ rest := hp0.mem_iff.mp hCcp
    have hp0nd : p0.Nodup := hp0.nodup_iff.mpr hndR
    have hCcnotin : Cc ∉ p0.dropLast := by
      intro hin
      rw [← hdec] at hp0nd
      rcases List.nodup_append.mp hp0nd with ⟨_, _, hdisj⟩
      exact hdisj hin (List.mem_singleton.mpr rfl)
    have herase : p0.erase Cc = p0.dropLast := by
      conv_lhs => rw [← hdec]
      rw [List.erase_append_right _ hCcnotin]
      simp
    have hdropPerm : List.Perm p0.dropLast (rest.erase Cc) := by
      rw [← herase]
      exact hp0.erase Cc
    have hy_mem : shortest_segment d (A :: rest).length A (rest.erase Cc) Cc ∈
        (rest.map (fun C => shortest_segment d (A :: rest).length A (rest.erase C) C)) :=
      List.mem_map.mpr ⟨Cc, hCcR, rfl⟩
    have hth_le_y := minBy_le _ hth _ hy_mem
    rcases shortest_segment_shape d (A :: rest).length A (rest.erase Cc) Cc (fuel_ok Cc)
      with ⟨m', hm', hyshape⟩
    have hseg_le := shortest_segment_min d (A :: rest).length A (rest.erase Cc) Cc
      (fuel_ok Cc) (hndR.erase Cc) p0.dropLast hdropPerm
    have hLy : tour_length d (shortest_segment d (A :: rest).length A (rest.erase Cc) Cc) =
        d A Cc + segment_length d (shortest_segment d (A :: rest).length A (rest.erase Cc) Cc) := by
      rw [hyshape]
      exact tour_length_segment d A Cc m'
    have hLte : tour_length d te = d A Cc + segment_length d (A :: (p0.dropLast ++ [Cc])) := by
      rw [hte_eq]
      conv_lhs => rw [← hdec]
      exact tour_length_segment d A Cc p0.dropLast
    calc tour_length d th
        ≤ tour_length d (shortest_segment d (A :: rest).length A (rest.erase Cc) Cc) :=
          hth_le_y
      _ = d A Cc + segment_length d
            (shortest_segment d (A :: rest).length A (rest.erase Cc) Cc) := hLy
      _ ≤ d A Cc + segment_length d (A :: (p0.dropLast ++ [Cc])) := add_le_add_left hseg_le _
      _ = tour_length d te := hLte.symm
  refine ⟨th, te, hhk, hte, le_antisymm h2' h1, ?_⟩
  -- minimality over every permutation, via rotation invariance
  intro p hp
  have hA : A ∈ p := hp.mem_iff.mpr (List.mem_cons_self A rest)
  rcases List.append_of_mem hA with ⟨u, v, rfl⟩
  have hrot : tour_length d (u ++ A :: v) = tour_length d (A :: (v ++ u)) :=
    tour_length_rotate d u (A :: v)
  have hpnd : (u ++ A :: v).Nodup := hp.nodup_iff.mpr hnd
  have hAu : A ∉ u := by
    intro hin
    rcases List.nodup_append.mp hpnd with ⟨_, _, hdisj⟩
    exact hdisj hin (List.mem_cons_self A v)
  have hvu : List.Perm (v ++ u) rest := by
    have h1' : (u ++ A :: v).erase A = u ++ v := by
      rw [List.erase_append_right _ hAu, List.erase_cons_head]
    have h2'' : List.Perm ((u ++ A :: v).erase A) ((A :: rest).erase A) := hp.erase A
    rw [h1', List.erase_cons_head] at h2''
    exact List.Perm.trans List.perm_append_comm h2''
  rw [hrot]
  exact hte_min (v ++ u) hvu

end HeldKarp

/-- Witness for claim C2 at a concrete 3-city instance (the 3-4-5
triangle): the hypotheses hold and the two solvers agree. -/
theorem held_karp_matches_exhaustive_witness :
    (([City.mk 0 0, City.mk 3 0, City.mk 0 4] : List City).Nodup ∧
      2 ≤ ([City.mk 0 0, City.mk 3 0, City.mk 0 4] : List City).length ∧
      ([City.mk 0 0, City.mk 3 0, City.mk 0 4] : List City).length ≤ 8) ∧
    ∃ th te, held_karp_tsp distSq [City.mk 0 0, City.mk 3 0, City.mk 0 4] = some th ∧
      exhaustive_tsp distSq [City.mk 0 0, City.mk 3 0, City.mk 0 4] = some te ∧
      tour_length distSq th = tour_length distSq te ∧
      ∀ p, List.Perm p [City.mk 0 0, City.mk 3 0, City.mk 0 4] →
        tour_length distSq te ≤ tour_length distSq p :=
  ⟨⟨by decide, by decide, by decide⟩,
    held_karp_matches_exhaustive distSq [City.mk 0 0, City.mk 3 0, City.mk 0 4]
      (by decide) (by decide) (by decide)⟩

section Memoized

variable {α : Type} [LinearOrderedCancelAddCommMonoid α] (d : City → City → α)

/-!
Stateful model of the memoized shortest_segment (functools.lru_cache) and
of held_karp_tsp's cache_clear discipline.  The lru_cache key is the
argument triple (A, Bs, C) where Bs is a frozenset: two argument lists in
different orders denote the same set, so the key stores the multiset of
Bs.  The memo is threaded explicitly through every call in Python
evaluation order.
-/

/-- SSKey is the lru_cache key of shortest_segment: the start city, the
set of intermediate cities, and the end city. -/
abbrev SSKey : Type := City × Multiset City × City

/-- SSMemo is the cache contents, most recent entry first. -/
abbrev SSMemo : Type := List (SSKey × List City)

/-- memoLookup finds the cached segment for a key, if present. -/
def memoLookup (memo : SSMemo) (k : SSKey) : Option (List City) :=
  (memo.find? (fun e => decide (e.1 = k))).map (fun e => e.2)

mutual

/-- shortest_segmentM is shortest_segment with the lru_cache made
explicit: consult the memo, otherwise compute as the pure function does —
threading the memo through the recursive calls in evaluation order — and
record the result under the key before returning. -/
def shortest_segmentM : ℕ → SSMemo → City → List City → City → SSMemo × List City
  | fuel, memo, A, Bs, C =>
    let key : SSKey := (A, Multiset.ofList Bs, C)
    match memoLookup memo key with
    | some seg => (memo, seg)
    | none =>
      match fuel, Bs with
      | _, [] => ((key, [A, C]) :: memo, [A, C])
      | 0, _ :: _ => ((key, [A, C]) :: memo, [A, C])
      | f + 1, B0 :: Bs' =>
          let r := ssM_candidates f memo A (B0 :: Bs') (B0 :: Bs') C
          let res := minByD (segment_length d) r.2 [A, C]
          ((key, res) :: r.1, res)
termination_by fuel memo A Bs C => (fuel, 0)

/-- ssM_candidates evaluates, for each B of the remaining list, the
candidate segment through BsAll - B ending at B extended by C, threading
the memo left to right exactly as the generator inside min does. -/
def ssM_candidates : ℕ → SSMemo → City → List City → List City → City → SSMemo × List (List City)
  | _, memo, _, _, [], _ => (memo, [])
  | f, memo, A, BsAll, B :: rest, C =>
      let r := shortest_segmentM f memo A (BsAll.erase B) B
      let r2 := ssM_candidates f r.1 A BsAll rest C
      (r2.1, (r.2 ++ [C]) :: r2.2)
termination_by f memo A BsAll rest C => (f, rest.length + 1)

end

/-- hk_segments computes the shortest segment for each end city C in turn,
threading the memo, mirroring the generator inside held_karp_tsp. -/
def hk_segments (fuel : ℕ) : SSMemo → City → List City → List City → SSMemo × List (List City)
  | memo, _, _, [] => (memo, [])
  | memo, A, others, C :: rest =>
      let r := shortest_segmentM d fuel memo A (others.erase C) C
      let r2 := hk_segments fuel r.1 A others rest
      (r2.1, r.2 :: r2.2)

/-- held_karp_tspM is held_karp_tsp acting on the explicit global memo: on
a nonempty set it first clears the memo (shortest_segment.cache_clear) and
then solves, returning the new memo contents and the tour; on an empty set
first(cities) raises before the clear, leaving the memo untouched. -/
def held_karp_tspM (memo : SSMemo) (cities : List City) : SSMemo × Option Tour :=
  match cities with
  | [] => (memo, none)
  | A :: rest =>
      let cleared : SSMemo := []
      let r := hk_segments d (A :: rest).length cleared A rest rest
      (r.1, minBy (tour_length d) r.2)

/-- Claim C3 (confirmed): the tour returned by a top-level held_karp_tsp
call is the same whatever the contents of the shortest_segment memo were
when the call started — first call ever or after any sequence of prior
solves on other instances — because the memo is cleared at the start of
each top-level solve, so no cached sub-results are shared between two
problem instances. -/
theorem held_karp_memo_isolated (m1 m2 : SSMemo) (cities : List City) :
    (held_karp_tspM d m1 cities).2 = (held_karp_tspM d m2 cities).2 := by
  cases cities <;> rfl

end Memoized

section TwoOpt

variable {α : Type} [LinearOrderedCancelAddCommMonoid α] (d : City → City → α)

/-- subsegments N: the (i, j) index pairs denoting tour[i:j] subsegments of
a tour of length N — lengths from N-2 down to 2 (reversed(range(2, N-1)))
and, for each, i in range(N - length). -/
def subsegments (N : ℕ) : List (ℕ × ℕ) :=
  ((List.range' 2 (N - 3)).reverse).flatMap
    (fun len => (List.range (N - len)).map (fun i => (i, i + len)))

/-- cityD is the irrelevant default used when reading a tour index that is
provably in range. -/
def cityD : City := City.mk 0 0

/-- reversal_is_improvement: with A = tour[i-1] (Python negative indexing
when i = 0, written as index (i + n - 1) % n), B = tour[i], C = tour[j-1],
D = tour[j % n], would reversing tour[i:j] make the tour shorter? -/
def reversal_is_improvement (t : Tour) (i j : ℕ) : Bool :=
  let A := t.getD ((i + t.length - 1) % t.length) cityD
  let B := t.getD i cityD
  let C := t.getD (j - 1) cityD
  let DD := t.getD (j % t.length) cityD
  decide (d A C + d B DD < d A B + d C DD)

/-- reverse_segment models the slice assignment
tour[i:j] = reversed(tour[i:j]). -/
def reverse_segment (t : Tour) (i j : ℕ) : Tour :=
  t.take i ++ ((t.drop i).take (j - i)).reverse ++ t.drop j

/-- opt2_step is the body of the for loop of opt2: apply the reversal if
it is an improvement, recording that the tour changed. -/
def opt2_step (acc : Tour × Bool) (p : ℕ × ℕ) : Tour × Bool :=
  if reversal_is_improvement d acc.1 p.1 p.2
  then (reverse_segment acc.1 p.1 p.2, true)
  else acc

/-- opt2_pass is one full for-loop pass of opt2 over the subsegments of
the tour, applying every improving reversal and recording whether any was
applied. -/
def opt2_pass (t : Tour) : Tour × Bool :=
  (subsegments t.length).foldl (opt2_step d) (t, false)

/-- opt2F is opt2 with explicit fuel for the pass-then-re-pass recursion:
if a pass changed the tour, recurse, otherwise return it.  The
termination theorem below shows the recursion always reaches an unchanged
pass, so every large enough fuel gives the same result. -/
def opt2F : ℕ → Tour → Tour
  | 0, t => t
  | fuel + 1, t =>
    let r := opt2_pass d t
    if r.2 then opt2F fuel r.1 else r.1

theorem getD_append_headD {γ : Type} (xs ys : List γ) (c : γ) :
    (xs ++ ys).getD xs.length c = ys.headD c := by
  induction xs with
  | nil => cases ys <;> rfl
  | cons x xs ih => exact ih

theorem getD_append_lt {γ : Type} (xs ys : List γ) (c : γ) :
    ∀ k, k < xs.length → (xs ++ ys).getD k c = xs.getD k c := by
  induction xs with
  | nil => intro k hk; cases hk
  | cons x xs ih =>
    intro k hk
    cases k with
    | zero => rfl
    | succ k' =>
      simp only [List.cons_append, List.getD_cons_succ]
      exact ih k' (by simpa using Nat.lt_of_succ_lt_succ hk)

theorem getD_last {γ : Type} : ∀ (l : List γ) (c : γ), l.getD (l.length - 1) c = lastD l c
  | [], _ => rfl
  | [_], _ => rfl
  | a :: b :: l, c => by
    show (a :: b :: l).getD ((b :: l).length - 1 + 1) c = lastD (b :: l) a
    rw [List.getD_cons_succ]
    rw [getD_last (b :: l) c]
    exact lastD_irrel b l c a

/-- segment_length is invariant under reversal when d is symmetric. -/
theorem segment_length_reverse (hsym : ∀ a b : City, d a b = d b a) :
    ∀ M : List City, segment_length d M.reverse = segment_length d M := by
  intro M
  induction M with
  | nil => rfl
  | cons a M' ih =>
    cases hM' : M' with
    | nil => rfl
    | cons b M'' =>
      subst hM'
      rw [List.reverse_cons]
      rcases hrev : (b :: M'').reverse with _ | ⟨z, zs⟩
      · exact absurd hrev (by simp)
      · rw [show (z :: zs) ++ [a] = (z :: zs) ++ [a] from rfl, segment_length_concat]
        have hz : lastD zs z = b := by
          have := lastD_reverse b M'' z
          rw [hrev] at this
          exact this
        rw [hz]
        rw [← hrev, ih]
        show segment_length d (b :: M'') + d a b = segment_length d (a :: b :: M'')
        rw [show segment_length d (a :: b :: M'') = d b a + segment_length d (b :: M'') from rfl]
        rw [hsym a b, add_comm]

theorem subsegments_mem {N i j : ℕ} (h : (i, j) ∈ subsegments N) :
    i + 2 ≤ j ∧ j + 1 ≤ N := by
  unfold subsegments at h
  rw [List.mem_flatMap] at h
  rcases h with ⟨len, hlen, hmap⟩
  rw [List.mem_reverse, List.mem_range'_1] at hlen
  rw [List.mem_map] at hmap
  rcases hmap with ⟨i', hi', heq⟩
  rw [List.mem_range] at hi'
  cases heq
  omega

theorem reverse_segment_decomp (t : Tour) (i j : ℕ) (hij : i + 2 ≤ j) (hj : j + 1 ≤ t.length) :
    ∃ P M S, t = P ++ M ++ S ∧ P.length = i ∧ 2 ≤ M.length ∧ S ≠ [] ∧
      i + M.length = j ∧ reverse_segment t i j = P ++ M.reverse ++ S := by
  have h3 : (t.drop i).drop (j - i) = t.drop j := by
    rw [List.drop_drop]
    congr 1
    omega
  have h2 : t.drop i = (t.drop i).take (j - i) ++ (t.drop i).drop (j - i) :=
    (List.take_append_drop _ _).symm
  have h1 : t = t.take i ++ t.drop i := (List.take_append_drop i t).symm
  refine ⟨t.take i, (t.drop i).take (j - i), t.drop j, ?_, ?_, ?_, ?_, ?_, rfl⟩
  · conv_rhs => rw [List.append_assoc]
    rw [← h3, ← h2]
    exact h1
  · rw [List.length_take]
    omega
  · rw [List.length_take, List.length_drop]
    omega
  · intro hnil
    rw [List.drop_eq_nil_iff] at hnil
    omega
  · rw [List.length_take, List.length_drop]
    omega

/-- tour_length of a tour of two nonempty blocks, fully expanded. -/
theorem tour_length_two_blocks (x0 : City) (X' : List City) (y0 : City) (Y' : List City) :
    tour_length d ((x0 :: X') ++ (y0 :: Y')) =
      d x0 (lastD Y' y0) +
        (segment_length d (x0 :: X') + d y0 (lastD X' x0) + segment_length d (y0 :: Y')) := by
  rw [show (x0 :: X') ++ (y0 :: Y') = x0 :: (X' ++ y0 :: Y') from rfl, tour_length_cons,
    lastD_append_cons]
  rw [show x0 :: (X' ++ y0 :: Y') = (x0 :: X') ++ (y0 :: Y') from rfl, segment_length_append]

/-- tour_length of a tour of three nonempty blocks, fully expanded. -/
theorem tour_length_three_blocks (p0 : City) (P' : List City) (m0 : City) (M' : List City)
    (s0 : City) (S' : List City) :
    tour_length d ((p0 :: P') ++ (m0 :: M') ++ (s0 :: S')) =
      d p0 (lastD S' s0) +
        (segment_length d (p0 :: P') + d m0 (lastD P' p0) +
          (segment_length d (m0 :: M') + d s0 (lastD M' m0) + segment_length d (s0 :: S'))) := by
  rw [List.append_assoc]
  rw [show (m0 :: M') ++ (s0 :: S') = m0 :: (M' ++ s0 :: S') from rfl]
  rw [tour_length_two_blocks d p0 P' m0 (M' ++ s0 :: S')]
  rw [lastD_append_cons]
  rw [show m0 :: (M' ++ s0 :: S') = (m0 :: M') ++ (s0 :: S') from rfl, segment_length_append]

/-- Key property of a single accepted 2-opt reversal: when the improvement
test holds, reversing the subsegment strictly decreases tour_length and
permutes the tour. -/
theorem reversal_decreases (hsym : ∀ a b : City, d a b = d b a) (t : Tour) (i j : ℕ)
    (hmem : (i, j) ∈ subsegments t.length)
    (himp : reversal_is_improvement d t i j = true) :
    tour_length d (reverse_segment t i j) < tour_length d t ∧
      List.Perm (reverse_segment t i j) t := by
  obtain ⟨hij, hjn⟩ := subsegments_mem hmem
  obtain ⟨P, M, S, hdec, hP, hM2, hSne, hMj, hrev⟩ :=
    reverse_segment_decomp t i j hij hjn
  rcases M with _ | ⟨m0, M'⟩
  · simp at hM2
  rcases S with _ | ⟨s0, S'⟩
  · exact absurd rfl hSne
  have hperm : List.Perm (reverse_segment t i j) t := by
    rw [hrev]
    conv_rhs => rw [hdec]
    simp only [List.append_assoc]
    exact List.Perm.append_left P
      (List.Perm.append_right (s0 :: S') (List.reverse_perm (m0 :: M')))
  refine ⟨?_, hperm⟩
  -- normalized length facts for the index arithmetic below
  have hMj' : i + M'.length + 1 = j := by
    simp only [List.length_cons] at hMj
    omega
  have hn : t.length = i + M'.length + S'.length + 2 := by
    rw [hdec]
    simp only [List.length_append, List.length_cons]
    omega
  have hPM : (P ++ m0 :: M').length = j := by
    simp only [List.length_append, List.length_cons]
    omega
  -- the four cities of the improvement test, identified structurally
  have hB : t.getD i cityD = m0 := by
    conv_lhs => rw [hdec, List.append_assoc, ← hP]
    rw [getD_append_headD]
    rfl
  have hjmod : j % t.length = j := Nat.mod_eq_of_lt (by omega)
  have hDD : t.getD (j % t.length) cityD = s0 := by
    rw [hjmod]
    conv_lhs => rw [hdec]
    rw [← hPM, getD_append_headD]
    rfl
  have hC : t.getD (j - 1) cityD = lastD M' m0 := by
    conv_lhs => rw [hdec]
    have hlt : j - 1 < (P ++ m0 :: M').length := by
      rw [hPM]
      omega
    rw [getD_append_lt _ _ _ _ hlt]
    rw [show j - 1 = (P ++ m0 :: M').length - 1 by rw [hPM]]
    rw [getD_last, lastD_append_cons]
  -- case split on whether the reversed block starts at the front
  rcases P with _ | ⟨p0, P'⟩
  · -- i = 0: the A city is the last of the whole tour
    have hi0 : i = 0 := by simpa using hP.symm
    have hA : t.getD ((i + t.length - 1) % t.length) cityD = lastD S' s0 := by
      rw [hi0]
      rw [show (0 + t.length - 1) % t.length = t.length - 1 from by
        rw [Nat.zero_add]
        exact Nat.mod_eq_of_lt (by omega)]
      rw [getD_last]
      conv_lhs => rw [hdec]
      show lastD (M' ++ s0 :: S') m0 = _
      rw [lastD_append_cons]
    unfold reversal_is_improvement at himp
    rw [decide_eq_true_iff] at himp
    rw [hA, hB, hC, hDD] at himp
    -- expand both tours
    rcases hrevM : (m0 :: M').reverse with _ | ⟨z, zs⟩
    · exact absurd hrevM (by simp)
    have hz : z = lastD M' m0 := by
      have := headD_reverse m0 M' cityD
      rw [hrevM] at this
      exact this
    have hzs : lastD zs z = m0 := by
      have := lastD_reverse m0 M' cityD
      rw [hrevM] at this
      exact this
    have hsegrev : segment_length d (z :: zs) = segment_length d (m0 :: M') := by
      rw [← hrevM]
      exact segment_length_reverse d hsym (m0 :: M')
    have hLt : tour_length d t =
        d m0 (lastD S' s0) + (segment_length d (m0 :: M') + d s0 (lastD M' m0) +
          segment_length d (s0 :: S')) := by
      conv_lhs => rw [hdec, List.nil_append]
      exact tour_length_two_blocks d m0 M' s0 S'
    have hLt' : tour_length d (reverse_segment t i j) =
        d (lastD M' m0) (lastD S' s0) + (segment_length d (m0 :: M') + d s0 m0 +
          segment_length d (s0 :: S')) := by
      rw [hrev, List.nil_append, hrevM]
      rw [tour_length_two_blocks d z zs s0 S']
      rw [hsegrev, hzs, hz]
    rw [hLt, hLt']
    have hX : d (lastD M' m0) (lastD S' s0) + d s0 m0 <
        d m0 (lastD S' s0) + d s0 (lastD M' m0) := by
      have e1 : d (lastD M' m0) (lastD S' s0) = d (lastD S' s0) (lastD M' m0) := hsym _ _
      have e2 : d s0 m0 = d m0 s0 := hsym _ _
      have e3 : d m0 (lastD S' s0) = d (lastD S' s0) m0 := hsym _ _
      have e4 : d s0 (lastD M' m0) = d (lastD M' m0) s0 := hsym _ _
      rw [e1, e2, e3, e4]
      exact himp
    calc d (lastD M' m0) (lastD S' s0) + (segment_length d (m0 :: M') + d s0 m0 +
          segment_length d (s0 :: S'))
        = (d (lastD M' m0) (lastD S' s0) + d s0 m0) +
            (segment_length d (m0 :: M') + segment_length d (s0 :: S')) := by abel
      _ < (d m0 (lastD S' s0) + d s0 (lastD M' m0)) +
            (segment_length d (m0 :: M') + segment_length d (s0 :: S')) :=
          add_lt_add_right hX _
      _ = d m0 (lastD S' s0) + (segment_length d (m0 :: M') + d s0 (lastD M' m0) +
            segment_length d (s0 :: S')) := by abel
  · -- i ≥ 1: the A city is the last of the prefix block
    have hi1 : 1 ≤ i := by
      rw [← hP]
      simp
    have hA : t.getD ((i + t.length - 1) % t.length) cityD = lastD P' p0 := by
      have hmod : (i + t.length - 1) % t.length = i - 1 := by
        have h1 : i + t.length - 1 = t.length + (i - 1) := by omega
        rw [h1, Nat.add_mod_left]
        exact Nat.mod_eq_of_lt (by omega)
      rw [hmod]
      conv_lhs => rw [hdec, List.append_assoc]
      have hlt : i - 1 < (p0 :: P').length := by
        rw [hP]
        omega
      rw [getD_append_lt _ _ _ _ hlt]
      rw [show i - 1 = (p0 :: P').length - 1 by rw [hP]]
      rw [getD_last]
      rfl
    unfold reversal_is_improvement at himp
    rw [decide_eq_true_iff] at himp
    rw [hA, hB, hC, hDD] at himp
    rcases hrevM : (m0 :: M').reverse with _ | ⟨z, zs⟩
    · exact absurd hrevM (by simp)
    have hz : z = lastD M' m0 := by
      have := headD_reverse m0 M' cityD
      rw [hrevM] at this
      exact this
    have hzs : lastD zs z = m0 := by
      have := lastD_reverse m0 M' cityD
      rw [hrevM] at this
      exact this
    have hsegrev : segment_length d (z :: zs) = segment_length d (m0 :: M') := by
      rw [← hrevM]
      exact segment_length_reverse d hsym (m0 :: M')
    have hLt : tour_length d t =
        d p0 (lastD S' s0) + (segment_length d (p0 :: P') + d m0 (lastD P' p0) +
          (segment_length d (m0 :: M') + d s0 (lastD M' m0) +
            segment_length d (s0 :: S'))) := by
      conv_lhs => rw [hdec]
      exact tour_length_three_blocks d p0 P' m0 M' s0 S'
    have hLt' : tour_length d (reverse_segment t i j) =
        d p0 (lastD S' s0) + (segment_length d (p0 :: P') + d (lastD M' m0) (lastD P' p0) +
          (segment_length d (m0 :: M') + d s0 m0 +
            segment_length d (s0 :: S'))) := by
      rw [hrev, hrevM]
      rw [tour_length_three_blocks d p0 P' z zs s0 S']
      rw [hsegrev, hzs, hz]
    rw [hLt, hLt']
    have hX : d (lastD M' m0) (lastD P' p0) + d s0 m0 <
        d m0 (lastD P' p0) + d s0 (lastD M' m0) := by
      have e1 : d (lastD M' m0) (lastD P' p0) = d (lastD P' p0) (lastD M' m0) := hsym _ _
      have e2 : d s0 m0 = d m0 s0 := hsym _ _
      have e3 : d m0 (lastD P' p0) = d (lastD P' p0) m0 := hsym _ _
      have e4 : d s0 (lastD M' m0) = d (lastD M' m0) s0 := hsym _ _
      rw [e1, e2, e3, e4]
      exact himp
    calc d p0 (lastD S' s0) + (segment_length d (p0 :: P') + d (lastD M' m0) (lastD P' p0) +
          (segment_length d (m0 :: M') + d s0 m0 + segment_length d (s0 :: S')))
        = (d (lastD M' m0) (lastD P' p0) + d s0 m0) +
            (d p0 (lastD S' s0) + segment_length d (p0 :: P') +
              segment_length d (m0 :: M') + segment_length d (s0 :: S')) := by abel
      _ < (d m0 (lastD P' p0) + d s0 (lastD M' m0)) +
            (d p0 (lastD S' s0) + segment_length d (p0 :: P') +
              segment_length d (m0 :: M') + segment_length d (s0 :: S')) :=
          add_lt_add_right hX _
      _ = d p0 (lastD S' s0) + (segment_length d (p0 :: P') + d m0 (lastD P' p0) +
            (segment_length d (m0 :: M') + d s0 (lastD M' m0) +
              segment_length d (s0 :: S'))) := by abel

/-- Invariants of the fold inside opt2_pass: the accumulator stays a
permutation of the start tour, never gets longer in tour_length, is
returned unchanged when the flag stays false, and strictly shrinks when
a pass starting with a false flag sets it. -/
theorem opt2_fold_spec (hsym : ∀ a b : City, d a b = d b a) (N : ℕ) :
    ∀ (l : List (ℕ × ℕ)) (u : Tour) (ch : Bool),
      (∀ p ∈ l, p ∈ subsegments N) → u.length = N →
      List.Perm (l.foldl (opt2_step d) (u, ch)).1 u ∧
      tour_length d (l.foldl (opt2_step d) (u, ch)).1 ≤ tour_length d u ∧
      ((l.foldl (opt2_step d) (u, ch)).2 = false →
        (l.foldl (opt2_step d) (u, ch)).1 = u ∧ ch = false) ∧
      ((ch = false ∧ (l.foldl (opt2_step d) (u, ch)).2 = true) →
        tour_length d (l.foldl (opt2_step d) (u, ch)).1 < tour_length d u) := by
  intro l
  induction l with
  | nil =>
    intro u ch _ _
    refine ⟨List.Perm.refl u, le_refl _, fun _ => ⟨rfl, ?_⟩, fun h => ?_⟩
    · assumption
    · rcases h with ⟨h1, h2⟩
      rw [h1] at h2
      cases h2
  | cons p l ih =>
    intro u ch hsub hlen
    rw [List.foldl_cons]
    rcases hb : reversal_is_improvement d u p.1 p.2 with _ | _
    · have hstep : opt2_step d (u, ch) p = (u, ch) := by
        unfold opt2_step
        rw [hb]
        rfl
      rw [hstep]
      exact ih u ch (fun q hq => hsub q (List.mem_cons_of_mem p hq)) hlen
    · have hp' : (p.1, p.2) ∈ subsegments u.length := by
        rw [hlen]
        exact hsub p (List.mem_cons_self p l)
      obtain ⟨hdec, hperm⟩ := reversal_decreases d hsym u p.1 p.2 hp' hb
      have hstep : opt2_step d (u, ch) p = (reverse_segment u p.1 p.2, true) := by
        unfold opt2_step
        rw [hb]
        rfl
      rw [hstep]
      have hlen' : (reverse_segment u p.1 p.2).length = N := by
        rw [hperm.length_eq, hlen]
      obtain ⟨ih1, ih2, ih3, _⟩ :=
        ih (reverse_segment u p.1 p.2) true (fun q hq => hsub q (List.mem_cons_of_mem p hq)) hlen'
      refine ⟨ih1.trans hperm, le_trans ih2 (le_of_lt hdec), ?_, ?_⟩
      · intro hf
        cases (ih3 hf).2
      · intro _
        exact lt_of_le_of_lt ih2 hdec

/-- opt2_pass never lengthens the tour, permutes it, returns it unchanged
when no reversal was applied, and strictly shortens it otherwise. -/
theorem opt2_pass_spec (hsym : ∀ a b : City, d a b = d b a) (t : Tour) :
    List.Perm (opt2_pass d t).1 t ∧
    tour_length d (opt2_pass d t).1 ≤ tour_length d t ∧
    ((opt2_pass d t).2 = false → (opt2_pass d t).1 = t) ∧
    ((opt2_pass d t).2 = true → tour_length d (opt2_pass d t).1 < tour_length d t) := by
  have h := opt2_fold_spec d hsym t.length (subsegments t.length) t false (fun _ hp => hp) rfl
  exact ⟨h.1, h.2.1, fun hf => (h.2.2.1 hf).1, fun ht => h.2.2.2 ⟨rfl, ht⟩⟩

/-- Claim C4 (confirmed): for every symmetric distance function, every
fuel and every tour t, the 2-opt optimizer never increases tour length:
tour_length(opt2(t)) is at most tour_length(t), since a subsegment
reversal is applied only when the two replaced links are strictly longer
than the two links replacing them. -/
theorem opt2_never_increases (hsym : ∀ a b : City, d a b = d b a) :
    ∀ (fuel : ℕ) (t : Tour), tour_length d (opt2F d fuel t) ≤ tour_length d t := by
  intro fuel
  induction fuel with
  | zero => intro t; exact le_refl _
  | succ f ih =>
    intro t
    have hunf : opt2F d (f + 1) t =
        if (opt2_pass d t).2 then opt2F d f (opt2_pass d t).1 else (opt2_pass d t).1 := rfl
    rw [hunf]
    have hspec := opt2_pass_spec d hsym t
    rcases hb : (opt2_pass d t).2 with _ | _
    · rw [if_neg Bool.false_ne_true]
      exact hspec.2.1
    · rw [if_pos rfl]
      exact le_trans (ih (opt2_pass d t).1) hspec.2.1

/-- Witness for claim C4 at a concrete tour and the concrete symmetric
distance distSq. -/
theorem opt2_never_increases_witness :
    (∀ a b : City, distSq a b = distSq b a) ∧
    tour_length distSq (opt2F distSq 5 [City.mk 0 0, City.mk 3 0, City.mk 0 4, City.mk 3 4]) ≤
      tour_length distSq [City.mk 0 0, City.mk 3 0, City.mk 0 4, City.mk 3 4] :=
  ⟨distSq_symm,
    opt2_never_increases distSq distSq_symm 5 [City.mk 0 0, City.mk 3 0, City.mk 0 4, City.mk 3 4]⟩

end TwoOpt

section TwoOptTermination

variable {α : Type} [LinearOrderedCancelAddCommMonoid α] [DecidableEq α] (d : City → City → α)

/-- tourVariants t: the finite set of tour lengths over all orderings of
the multiset of t; any run of accepted reversals moves through this set. -/
def tourVariants (t : Tour) : Finset α :=
  ((t.permutations).map (tour_length d)).toFinset

/-- opt2Measure t counts the variant lengths strictly below the current
one; it strictly decreases on every changed pass. -/
def opt2Measure (t : Tour) : ℕ :=
  ((tourVariants d t).filter (fun v => v < tour_length d t)).card

theorem tourVariants_congr {u t : Tour} (h : List.Perm u t) :
    tourVariants d u = tourVariants d t := by
  unfold tourVariants
  apply Finset.ext
  intro x
  simp only [List.mem_toFinset, List.mem_map, List.mem_permutations]
  exact ⟨fun ⟨p, hp, he⟩ => ⟨p, hp.trans h, he⟩, fun ⟨p, hp, he⟩ => ⟨p, hp.trans h.symm, he⟩⟩

theorem opt2Measure_lt {u' u : Tour} (hperm : List.Perm u' u)
    (hlt : tour_length d u' < tour_length d u) : opt2Measure d u' < opt2Measure d u := by
  unfold opt2Measure
  rw [tourVariants_congr d hperm]
  apply Finset.card_lt_card
  have hsub : (tourVariants d u).filter (fun v => v < tour_length d u') ⊆
      (tourVariants d u).filter (fun v => v < tour_length d u) := by
    intro x hx
    rw [Finset.mem_filter] at hx ⊢
    exact ⟨hx.1, hx.2.trans hlt⟩
  rw [Finset.ssubset_iff_of_subset hsub]
  refine ⟨tour_length d u', ?_, ?_⟩
  · rw [Finset.mem_filter]
    refine ⟨?_, hlt⟩
    unfold tourVariants
    rw [List.mem_toFinset, List.mem_map]
    exact ⟨u', List.mem_permutations.mpr hperm, rfl⟩
  · rw [Finset.mem_filter]
    intro hx
    exact absurd hx.2 (lt_irrefl _)

/-- After at most opt2Measure t + 1 passes the optimizer is at a tour on
which a pass applies no reversal, and the result no longer depends on the
fuel. -/
theorem opt2F_fixed (hsym : ∀ a b : City, d a b = d b a) :
    ∀ (n : ℕ) (t : Tour), opt2Measure d t ≤ n →
      (opt2_pass d (opt2F d (n + 1) t)).2 = false ∧
      ∀ g, n + 1 ≤ g → opt2F d g t = opt2F d (n + 1) t := by
  intro n
  induction n using Nat.strong_induction_on with
  | _ n ih =>
    intro t hmu
    have hspec := opt2_pass_spec d hsym t
    rcases hb : (opt2_pass d t).2 with _ | _
    · have hfix : (opt2_pass d t).1 = t := hspec.2.2.1 hb
      have hall : ∀ k, opt2F d (k + 1) t = t := by
        intro k
        have hunf : opt2F d (k + 1) t =
            if (opt2_pass d t).2 then opt2F d k (opt2_pass d t).1 else (opt2_pass d t).1 := rfl
        rw [hunf, hb, if_neg (by exact Bool.false_ne_true), hfix]
      refine ⟨?_, ?_⟩
      · rw [hall n]
        exact hb
      · intro g hg
        obtain ⟨g', rfl⟩ : ∃ g', g = g' + 1 := ⟨g - 1, by omega⟩
        rw [hall g', hall n]
    · have hlt := hspec.2.2.2 hb
      have hmu' : opt2Measure d (opt2_pass d t).1 < opt2Measure d t :=
        opt2Measure_lt d hspec.1 hlt
      rcases n with _ | m
      · omega
      · have ihm := ih m (by omega) (opt2_pass d t).1 (by omega)
        have hunf : ∀ k, opt2F d (k + 1) t = opt2F d k (opt2_pass d t).1 := by
          intro k
          have h0 : opt2F d (k + 1) t =
              if (opt2_pass d t).2 then opt2F d k (opt2_pass d t).1 else (opt2_pass d t).1 := rfl
          rw [h0, hb, if_pos rfl]
        refine ⟨?_, ?_⟩
        · rw [hunf (m + 1)]
          exact ihm.1
        · intro g hg
          obtain ⟨g', rfl⟩ : ∃ g', g = g' + 1 := ⟨g - 1, by omega⟩
          rw [hunf g', hunf (m + 1)]
          exact ihm.2 g' (by omega)

/-- Claim C5 (confirmed): the 2-opt recursion terminates: every pass that
applies at least one reversal strictly decreases total tour length, the
lengths range over the finite set of orderings of the tour's cities, and
after finitely many passes (at most opt2Measure t + 1) a pass applies no
reversal, so opt2 reaches a fixed point: beyond that fuel the result
never changes. -/
theorem opt2_terminates (hsym : ∀ a b : City, d a b = d b a) (t : Tour) :
    (∀ u : Tour, (opt2_pass d u).2 = true →
      tour_length d (opt2_pass d u).1 < tour_length d u) ∧
    ∃ f, (opt2_pass d (opt2F d f t)).2 = false ∧
      ∀ g, f ≤ g → opt2F d g t = opt2F d f t :=
  ⟨fun u hu => (opt2_pass_spec d hsym u).2.2.2 hu,
    ⟨opt2Measure d t + 1,
      (opt2F_fixed d hsym (opt2Measure d t) t (le_refl _)).1,
      (opt2F_fixed d hsym (opt2Measure d t) t (le_refl _)).2⟩⟩

/-- Witness for claim C5 at a concrete tour and the concrete symmetric
distance distSq. -/
theorem opt2_terminates_witness :
    (∀ a b : City, distSq a b = distSq b a) ∧
    ((∀ u : Tour, (opt2_pass distSq u).2 = true →
        tour_length distSq (opt2_pass distSq u).1 < tour_length distSq u) ∧
      ∃ f, (opt2_pass distSq (opt2F distSq f
          [City.mk 0 0, City.mk 3 0, City.mk 0 4, City.mk 3 4])).2 = false ∧
        ∀ g, f ≤ g → opt2F distSq g [City.mk 0 0, City.mk 3 0, City.mk 0 4, City.mk 3 4] =
          opt2F distSq f [City.mk 0 0, City.mk 3 0, City.mk 0 4, City.mk 3 4]) :=
  ⟨distSq_symm,
    opt2_terminates distSq distSq_symm [City.mk 0 0, City.mk 3 0, City.mk 0 4, City.mk 3 4]⟩

end TwoOptTermination

/-- PyErr distinguishes the Python exceptions a run can end in: ValueError
(unpacking or min over an empty collection, or random.sample with a
negative count) and RecursionError (the interpreter recursion limit). -/
inductive PyErr where
  | valueError
  | recursionLimit
deriving DecidableEq, Repr

section Divide

variable {α : Type} [LinearOrderedCancelAddCommMonoid α] (d : City → City → α)

/-- Xs: the x coordinates of the cities. -/
def Xs (cities : List City) : List ℚ := cities.map City.x

/-- Ys: the y coordinates of the cities. -/
def Ys (cities : List City) : List ℚ := cities.map City.y

/-- X_ city: its x coordinate. -/
def X_ (city : City) : ℚ := city.x

/-- Y_ city: its y coordinate. -/
def Y_ (city : City) : ℚ := city.y

/-- extent numbers = max(numbers) - min(numbers), written with folds over
the nonempty list (Python max and min raise on an empty one; the headD
default is never reached in context). -/
def extent (numbers : List ℚ) : ℚ :=
  numbers.foldl max (numbers.headD 0) - numbers.foldl min (numbers.headD 0)

/-- split_cities: sort by x if the map is wider than tall, else by y, and
cut at the middle index (len // 2). -/
def split_cities (cities : List City) : List City × List City :=
  let coord := if extent (Ys cities) < extent (Xs cities) then X_ else Y_
  let sorted := cities.mergeSort (fun a b => decide (coord a ≤ coord b))
  let middle := sorted.length / 2
  (sorted.take middle, sorted.drop middle)

/-- rotations: all rotations of a sequence, the rotation at i being the
suffix from i followed by the prefix up to i. -/
def rotations {γ : Type} (sequence : List γ) : List (List γ) :=
  (List.range sequence.length).map (fun i => sequence.drop i ++ sequence.take i)

/-- join_tours: consider every rotation of the first tour concatenated
with every rotation of the second in both orientations, and pick the
shortest. -/
def join_tours (tour1 tour2 : Tour) : Option Tour :=
  shortest d
    ((rotations tour1).flatMap (fun s1 =>
      (rotations tour2).flatMap (fun s2 =>
        [s2, s2.reverse].map (fun s3 => s1 ++ s3))))

/-- divide_join combines the two recursive results of divide_tsp: a
Python exception in either half propagates (the first half is evaluated
first), otherwise the two sub-tours are joined. -/
def divide_join (r1 r2 : Except PyErr Tour) : Except PyErr Tour :=
  match r1, r2 with
  | .ok t1, .ok t2 =>
    match join_tours d t1 t2 with
    | none => .error .valueError
    | some t => .ok t
  | .error e, _ => .error e
  | .ok _, .error e => .error e

/-- divide_tsp: solve exactly when the instance is smaller than the split
threshold, otherwise split, recurse on both halves, and join.  The fuel
argument models the interpreter recursion limit; its exhaustion is the
RecursionError the source runs into when the threshold makes the halves
stop shrinking. -/
def divide_tsp : ℕ → List City → ℤ → Except PyErr Tour
  | 0, _, _ => .error .recursionLimit
  | fuel + 1, cities, split =>
    if (cities.length : ℤ) < split then
      match exhaustive_tsp d cities with
      | none => .error .valueError
      | some t => .ok t
    else
      divide_join d (divide_tsp fuel (split_cities cities).1 split)
        (divide_tsp fuel (split_cities cities).2 split)

theorem divide_join_ok {t1 t2 t : Tour} (h : join_tours d t1 t2 = some t) :
    divide_join d (.ok t1) (.ok t2) = .ok t := by
  simp only [divide_join]
  rw [h]

theorem divide_join_error_left (e : PyErr) (r : Except PyErr Tour) :
    divide_join d (.error e) r = .error e := by
  simp only [divide_join]

theorem divide_join_error_right (t1 : Tour) (e : PyErr) :
    divide_join d (.ok t1) (.error e) = .error e := by
  simp only [divide_join]

theorem rotations_perm {γ : Type} {l s : List γ} (h : s ∈ rotations l) : List.Perm s l := by
  unfold rotations at h
  rw [List.mem_map] at h
  rcases h with ⟨i, _, rfl⟩
  conv_rhs => rw [← List.take_append_drop i l]
  exact List.perm_append_comm

theorem rotations_self {γ : Type} {l : List γ} (h : l ≠ []) :
    l.drop 0 ++ l.take 0 ∈ rotations l := by
  unfold rotations
  rw [List.mem_map]
  exact ⟨0, by rw [List.mem_range]; exact List.length_pos.mpr h, rfl⟩

/-- join_tours on two nonempty tours succeeds and returns a permutation of
their concatenation. -/
theorem join_tours_spec (t1 t2 : Tour) (h1 : t1 ≠ []) (h2 : t2 ≠ []) :
    ∃ t, join_tours d t1 t2 = some t ∧ List.Perm t (t1 ++ t2) := by
  have hmem0 : (t1.drop 0 ++ t1.take 0) ++ (t2.drop 0 ++ t2.take 0) ∈
      ((rotations t1).flatMap (fun s1 =>
        (rotations t2).flatMap (fun s2 =>
          [s2, s2.reverse].map (fun s3 => s1 ++ s3)))) := by
    rw [List.mem_flatMap]
    refine ⟨t1.drop 0 ++ t1.take 0, rotations_self h1, ?_⟩
    rw [List.mem_flatMap]
    refine ⟨t2.drop 0 ++ t2.take 0, rotations_self h2, ?_⟩
    rw [List.mem_map]
    exact ⟨t2.drop 0 ++ t2.take 0, List.mem_cons_self _ _, rfl⟩
  have hne : ((rotations t1).flatMap (fun s1 =>
      (rotations t2).flatMap (fun s2 =>
        [s2, s2.reverse].map (fun s3 => s1 ++ s3)))) ≠ [] :=
    List.ne_nil_of_mem hmem0
  rcases minBy_isSome (tour_length d) hne with ⟨t, ht⟩
  refine ⟨t, ht, ?_⟩
  have hmem := minBy_mem _ ht
  rw [List.mem_flatMap] at hmem
  rcases hmem with ⟨s1, hs1, hmem⟩
  rw [List.mem_flatMap] at hmem
  rcases hmem with ⟨s2, hs2, hmem⟩
  rw [List.mem_map] at hmem
  rcases hmem with ⟨s3, hs3, rfl⟩
  have hp1 : List.Perm s1 t1 := rotations_perm hs1
  have hp3 : List.Perm s3 t2 := by
    rcases List.mem_cons.mp hs3 with rfl | hs3'
    · exact rotations_perm hs2
    · rw [List.mem_singleton.mp hs3']
      exact (List.reverse_perm s2).trans (rotations_perm hs2)
  exact List.Perm.append hp1 hp3

/-- divide_tsp with the default split 7 succeeds on every nonempty set
once the fuel exceeds the number of cities, and returns a permutation of
the cities. -/
theorem divide_tsp_valid :
    ∀ (n : ℕ) (cities : List City) (fuel : ℕ), cities.length = n → cities ≠ [] →
      cities.length < fuel →
      ∃ t, divide_tsp d fuel cities 7 = .ok t ∧ List.Perm t cities := by
  intro n
  induction n using Nat.strong_induction_on with
  | _ n ih =>
    intro cities fuel hn hne hfuel
    rcases fuel with _ | f
    · omega
    by_cases hsmall : (cities.length : ℤ) < 7
    · rcases cities with _ | ⟨c, rest⟩
      · exact absurd rfl hne
      rcases exhaustive_tsp_spec d c rest with ⟨te, hte, ⟨p, hp, hform⟩, _⟩
      refine ⟨te, ?_, ?_⟩
      · show divide_tsp d (f + 1) (c :: rest) 7 = .ok te
        unfold divide_tsp
        rw [if_pos hsmall, hte]
      · rw [hform]
        exact (hp.cons c)
    · -- the recursive case: split, solve halves, join
      have hlen7 : 7 ≤ cities.length := by
        push_neg at hsmall
        exact_mod_cast hsmall
      have hsp : (split_cities cities).1 ++ (split_cities cities).2 =
          cities.mergeSort (fun a b => decide
            ((if extent (Ys cities) < extent (Xs cities) then X_ else Y_) a ≤
              (if extent (Ys cities) < extent (Xs cities) then X_ else Y_) b)) := by
        unfold split_cities
        exact List.take_append_drop _ _
      have hsperm : List.Perm ((split_cities cities).1 ++ (split_cities cities).2) cities := by
        rw [hsp]
        exact List.mergeSort_perm cities _
      have hslen : (split_cities cities).1.length + (split_cities cities).2.length =
          cities.length := by
        rw [← List.length_append, hsperm.length_eq]
      have hlen1 : (split_cities cities).1.length = cities.length / 2 := by
        unfold split_cities
        rw [List.length_take, (List.mergeSort_perm cities _).length_eq]
        omega
      have h1lb : 3 ≤ (split_cities cities).1.length := by omega
      have h2lb : 4 ≤ (split_cities cities).2.length := by omega
      have h1lt : (split_cities cities).1.length < n := by omega
      have h2lt : (split_cities cities).2.length < n := by omega
      rcases ih (split_cities cities).1.length h1lt (split_cities cities).1 f rfl
        (by intro h0; rw [h0] at h1lb; simp at h1lb) (by omega) with ⟨t1, ht1, hp1⟩
      rcases ih (split_cities cities).2.length h2lt (split_cities cities).2 f rfl
        (by intro h0; rw [h0] at h2lb; simp at h2lb) (by omega) with ⟨t2, ht2, hp2⟩
      have ht1ne : t1 ≠ [] := by
        intro h0
        rw [h0] at hp1
        have := hp1.length_eq
        simp at this
        omega
      have ht2ne : t2 ≠ [] := by
        intro h0
        rw [h0] at hp2
        have := hp2.length_eq
        simp at this
        omega
      rcases join_tours_spec d t1 t2 ht1ne ht2ne with ⟨t, htj, hpt⟩
      refine ⟨t, ?_, ?_⟩
      · show divide_tsp d (f + 1) cities 7 = .ok t
        unfold divide_tsp
        rw [if_neg hsmall, ht1, ht2]
        exact divide_join_ok d htj
      · exact hpt.trans ((hp1.append hp2).trans hsperm)

/-- divide_tsp with a nonpositive split threshold never takes the base
case: it recurses until the interpreter recursion limit, whatever the
budget. -/
theorem divide_tsp_diverges (split : ℤ) (hs : split ≤ 0) :
    ∀ (fuel : ℕ) (cities : List City), divide_tsp d fuel cities split = .error .recursionLimit := by
  intro fuel
  induction fuel with
  | zero => intro cities; rfl
  | succ f ih =>
    intro cities
    unfold divide_tsp
    rw [if_neg (by push_neg; exact le_trans hs (by positivity))]
    rw [ih (split_cities cities).1]
    exact divide_join_error_left d _ _

/-- split_cities on a single city puts it in the second half. -/
theorem split_cities_singleton (c : City) : split_cities [c] = ([], [c]) := by
  simp [split_cities, List.mergeSort]

/-- divide_tsp with split 1 on a single city recurses once and then fails
with a ValueError from exhaustive_tsp on an empty half — not with a
configuration error at call time. -/
theorem divide_tsp_split_one (c : City) :
    ∀ fuel, 2 ≤ fuel → divide_tsp d fuel [c] 1 = .error .valueError := by
  intro fuel hf
  obtain ⟨f, rfl⟩ : ∃ f, fuel = f + 2 := ⟨fuel - 2, by omega⟩
  show divide_tsp d (f + 1 + 1) [c] 1 = _
  unfold divide_tsp
  rw [if_neg (by norm_num), split_cities_singleton]
  show divide_join d (divide_tsp d (f + 1) ([] : List City) 1) (divide_tsp d (f + 1) [c] 1) =
    Except.error PyErr.valueError
  have hleft : divide_tsp d (f + 1) ([] : List City) 1 = .error .valueError := by
    unfold divide_tsp
    rw [if_pos (by norm_num)]
    rfl
  rw [hleft]
  exact divide_join_error_left d _ _

/-- rep_nearest_tsp with a nonpositive sample count k produces no tour: a
negative k makes random.sample raise, and k = 0 samples no start cities so
min is taken over an empty collection and raises. -/
theorem rep_nearest_tsp_nonpos (cities : List City) (k : ℤ) (hk : k ≤ 0) :
    rep_nearest_tsp d cities k = none := by
  unfold rep_nearest_tsp sample
  by_cases hneg : min k (cities.length : ℤ) < 0
  · rw [if_pos hneg]
  · rw [if_neg hneg]
    have hk0 : min k (cities.length : ℤ) = 0 := by omega
    rw [hk0]
    show (match rep_tours d cities [] with
      | none => none
      | some tours => shortest d tours) = none
    rfl

end Divide

/-- Claim C8, counterexample: calling divide_tsp with split threshold 0 on
a one-city set does not report a configuration error at call time: it
recurses until the interpreter recursion budget is exhausted, whatever
that budget is (shown here at two different budgets). -/
theorem divide_config_cex :
    divide_tsp distSq 10 [City.mk 0 0] 0 = .error .recursionLimit ∧
    divide_tsp distSq 100 [City.mk 0 0] 0 = .error .recursionLimit :=
  ⟨divide_tsp_diverges distSq 0 (le_refl 0) 10 [City.mk 0 0],
    divide_tsp_diverges distSq 0 (le_refl 0) 100 [City.mk 0 0]⟩

/-- Claim C8 (amended): neither function validates its configuration at
call time.  divide_tsp with a split threshold of 0 or below recurses until
the interpreter recursion limit on any input; with split 1 on a one-city
set it fails deep in the recursion with a ValueError when exhaustive_tsp
unpacks an empty half; and rep_nearest_tsp with k at most 0 produces no
tour, failing only when the minimum of an empty collection of tours is
taken (or, for negative k, inside random.sample). -/
theorem no_call_time_config_check {α : Type} [LinearOrderedCancelAddCommMonoid α]
    (d : City → City → α) :
    (∀ (split : ℤ), split ≤ 0 → ∀ (fuel : ℕ) (cities : List City),
      divide_tsp d fuel cities split = .error .recursionLimit) ∧
    (∀ (c : City) (fuel : ℕ), 2 ≤ fuel → divide_tsp d fuel [c] 1 = .error .valueError) ∧
    (∀ (cities : List City) (k : ℤ), k ≤ 0 → rep_nearest_tsp d cities k = none) :=
  ⟨fun split hs => divide_tsp_diverges d split hs,
    fun c fuel hf => divide_tsp_split_one d c fuel hf,
    fun cities k hk => rep_nearest_tsp_nonpos d cities k hk⟩

/-- Witness for the amended claim C8 at concrete inputs. -/
theorem no_call_time_config_check_witness :
    divide_tsp distSq 3 [City.mk 0 0] 0 = .error .recursionLimit ∧
    divide_tsp distSq 2 [City.mk 0 0] 1 = .error .valueError ∧
    rep_nearest_tsp distSq [City.mk 0 0] 0 = none :=
  ⟨(no_call_time_config_check distSq).1 0 (by decide) 3 [City.mk 0 0],
    (no_call_time_config_check distSq).2.1 (City.mk 0 0) 2 (by decide),
    (no_call_time_config_check distSq).2.2 [City.mk 0 0] 0 (by decide)⟩

section Greedy

variable {α : Type} [LinearOrderedCancelAddCommMonoid α] (d : City → City → α)

/-- combinations2 models itertools.combinations(cities, 2) in its
enumeration order. -/
def combinations2 {γ : Type} : List γ → List (γ × γ)
  | [] => []
  | x :: xs => (xs.map (fun y => (x, y))) ++ combinations2 xs

/-- shortest_links_first: all links between cities sorted shortest first
(Python sorted is stable; so is mergeSort). -/
def shortest_links_first (cities : List City) : List (City × City) :=
  (combinations2 cities).mergeSort (fun l1 l2 => decide (d l1.1 l1.2 ≤ d l2.1 l2.2))

/-- Endpoints models the {endpoint: segment} dict of greedy_tsp as a map
from a city to the segment it currently ends, if any. -/
abbrev Endpoints : Type := City → Option (List City)

/-- join_segments: align Aseg to end at A and Bseg to start at B (the
source reverses in place using identity comparison, which on the distinct
city objects stored here is value equality), concatenate, delete the keys
A and B, and register the joined segment under its two new endpoints. -/
def join_segments (endpoints : Endpoints) (A B : City) : Endpoints × List City :=
  let Aseg0 := (endpoints A).getD []
  let Bseg0 := (endpoints B).getD []
  let Aseg := if Aseg0.getLast? ≠ some A then Aseg0.reverse else Aseg0
  let Bseg := if Bseg0.head? ≠ some B then Bseg0.reverse else Bseg0
  let joined := Aseg ++ Bseg
  let ep1 : Endpoints := fun X => if X = A ∨ X = B then none else endpoints X
  let ep2 : Endpoints := fun X =>
    if joined.head? = some X ∨ joined.getLast? = some X then some joined else ep1 X
  (ep2, joined)

/-- greedy_loop is the for loop of greedy_tsp over the sorted links: a
link both of whose cities are currently endpoints of two different
segments joins them; when a joined segment spans all n cities it is
returned; falling off the end of the links returns None.  The source binds
the result of join_segments once; join_segments is pure, so writing the
call twice is the same computation. -/
def greedy_loop (n : ℕ) : Endpoints → List (City × City) → Option Tour
  | _, [] => none
  | ep, (A, B) :: rest =>
    match ep A, ep B with
    | some Aseg, some Bseg =>
      if Aseg ≠ Bseg then
        if (join_segments ep A B).2.length = n then some (join_segments ep A B).2
        else greedy_loop n (join_segments ep A B).1 rest
      else greedy_loop n ep rest
    | _, _ => greedy_loop n ep rest

/-- init_endpoints models the dict comprehension {C: [C] for C in cities}:
every city of the set is an endpoint of its own one-city segment. -/
def init_endpoints (cities : List City) : Endpoints :=
  fun C => if C ∈ cities then some [C] else none

/-- greedy_tsp: initialize every city as a one-city segment with itself as
both endpoints, then join along the links shortest first. -/
def greedy_tsp (cities : List City) : Option Tour :=
  greedy_loop cities.length (init_endpoints cities) (shortest_links_first d cities)

theorem combinations2_mem_of_mem {γ : Type} :
    ∀ (l : List γ) (a b : γ), a ∈ l → b ∈ l → a ≠ b →
      (a, b) ∈ combinations2 l ∨ (b, a) ∈ combinations2 l := by
  intro l
  induction l with
  | nil => intro a b ha _ _; cases ha
  | cons x xs ih =>
    intro a b ha hb hne
    rcases List.mem_cons.mp ha with rfl | ha'
    · rcases List.mem_cons.mp hb with rfl | hb'
      · exact absurd rfl hne
      · left
        unfold combinations2
        exact List.mem_append.mpr (Or.inl (List.mem_map.mpr ⟨b, hb', rfl⟩))
    · rcases List.mem_cons.mp hb with rfl | hb'
      · right
        unfold combinations2
        exact List.mem_append.mpr (Or.inl (List.mem_map.mpr ⟨a, ha', rfl⟩))
      · rcases ih a b ha' hb' hne with h | h
        · left
          unfold combinations2
          exact List.mem_append.mpr (Or.inr h)
        · right
          unfold combinations2
          exact List.mem_append.mpr (Or.inr h)

theorem combinations2_subset {γ : Type} :
    ∀ (l : List γ) (p : γ × γ), p ∈ combinations2 l → p.1 ∈ l ∧ p.2 ∈ l := by
  intro l
  induction l with
  | nil => intro p hp; cases hp
  | cons x xs ih =>
    intro p hp
    unfold combinations2 at hp
    rcases List.mem_append.mp hp with h | h
    · rcases List.mem_map.mp h with ⟨y, hy, rfl⟩
      exact ⟨List.mem_cons_self x xs, List.mem_cons_of_mem x hy⟩
    · rcases ih p h with ⟨h1, h2⟩
      exact ⟨List.mem_cons_of_mem x h1, List.mem_cons_of_mem x h2⟩

/-- Members of a duplicate-free flatten of nonempty lists are themselves
duplicate-free as a list of lists. -/
theorem segs_nodup_of_flatten {segs : List (List City)}
    (hfl : segs.flatten.Nodup) (hne : ∀ S ∈ segs, S ≠ []) : segs.Nodup := by
  induction segs with
  | nil => exact List.nodup_nil
  | cons U rest ih =>
    rw [List.flatten_cons] at hfl
    rcases List.nodup_append.mp hfl with ⟨hU, hrest, hdisj⟩
    rw [List.nodup_cons]
    constructor
    · intro hUrest
      rcases List.exists_mem_of_ne_nil U (hne U (List.mem_cons_self U rest)) with ⟨u, hu⟩
      exact hdisj hu (List.mem_flatten.mpr ⟨U, hUrest, hu⟩)
    · exact ih hrest (fun S hS => hne S (List.mem_cons_of_mem U hS))

/-- Distinct member segments of a duplicate-free flatten are disjoint. -/
theorem segs_disjoint_of_flatten {segs : List (List City)}
    (hfl : segs.flatten.Nodup) :
    ∀ S ∈ segs, ∀ T ∈ segs, S ≠ T → ∀ x ∈ S, x ∉ T := by
  induction segs with
  | nil => intro S hS; cases hS
  | cons U rest ih =>
    rw [List.flatten_cons] at hfl
    rcases List.nodup_append.mp hfl with ⟨_, hrest, hdisj⟩
    intro S hS T hT hST x hx
    rcases List.mem_cons.mp hS with rfl | hS'
    · rcases List.mem_cons.mp hT with rfl | hT'
      · exact absurd rfl hST
      · exact fun hxT => hdisj hx (List.mem_flatten.mpr ⟨T, hT', hxT⟩)
    · rcases List.mem_cons.mp hT with rfl | hT'
      · intro hxT
        exact hdisj hxT (List.mem_flatten.mpr ⟨S, hS', hx⟩)
      · exact ih hrest S hS' T hT' hST x hx

/-- Orienting a segment to end at one of its two endpoints: the result is
a permutation ending at A whose ends are exactly the original ends. -/
theorem orient_last (S : List City) (A : City) (hend : S.head? = some A ∨ S.getLast? = some A) :
    (if S.getLast? ≠ some A then S.reverse else S).getLast? = some A ∧
    List.Perm (if S.getLast? ≠ some A then S.reverse else S) S ∧
    (∀ X, (if S.getLast? ≠ some A then S.reverse else S).head? = some X →
      S.head? = some X ∨ S.getLast? = some X) ∧
    (∀ X, (S.head? = some X ∨ S.getLast? = some X) →
      (if S.getLast? ≠ some A then S.reverse else S).head? = some X ∨
      (if S.getLast? ≠ some A then S.reverse else S).getLast? = some X) := by
  by_cases hA : S.getLast? = some A
  · rw [if_neg (by simpa using hA)]
    exact ⟨hA, List.Perm.refl S, fun X hX => Or.inl hX, fun X hX => hX⟩
  · rw [if_pos (by simpa using hA)]
    have hhead : S.head? = some A := by
      rcases hend with h | h
      · exact h
      · exact absurd h hA
    refine ⟨?_, List.reverse_perm S, ?_, ?_⟩
    · rw [List.getLast?_reverse]
      exact hhead
    · intro X hX
      rw [List.head?_reverse] at hX
      exact Or.inr hX
    · intro X hX
      rw [List.head?_reverse, List.getLast?_reverse]
      exact hX.symm

/-- Orienting a segment to start at one of its two endpoints. -/
theorem orient_head (S : List City) (B : City) (hend : S.head? = some B ∨ S.getLast? = some B) :
    (if S.head? ≠ some B then S.reverse else S).head? = some B ∧
    List.Perm (if S.head? ≠ some B then S.reverse else S) S ∧
    (∀ X, (if S.head? ≠ some B then S.reverse else S).getLast? = some X →
      S.head? = some X ∨ S.getLast? = some X) ∧
    (∀ X, (S.head? = some X ∨ S.getLast? = some X) →
      (if S.head? ≠ some B then S.reverse else S).head? = some X ∨
      (if S.head? ≠ some B then S.reverse else S).getLast? = some X) := by
  by_cases hB : S.head? = some B
  · rw [if_neg (by simpa using hB)]
    exact ⟨hB, List.Perm.refl S, fun X hX => Or.inr hX, fun X hX => hX⟩
  · rw [if_pos (by simpa using hB)]
    have hlast : S.getLast? = some B := by
      rcases hend with h | h
      · exact absurd h hB
      · exact h
    refine ⟨?_, List.reverse_perm S, ?_, ?_⟩
    · rw [List.head?_reverse]
      exact hlast
    · intro X hX
      rw [List.getLast?_reverse] at hX
      exact Or.inl hX
    · intro X hX
      rw [List.head?_reverse, List.getLast?_reverse]
      exact hX.symm

theorem head?_append_of_ne_nil {γ : Type} (l₁ l₂ : List γ) (h : l₁ ≠ []) :
    (l₁ ++ l₂).head? = l₁.head? := by
  cases l₁ with
  | nil => exact absurd rfl h
  | cons x xs => rfl

theorem flatten_map_singleton {γ : Type} :
    ∀ l : List γ, (l.map (fun c => [c])).flatten = l := by
  intro l
  induction l with
  | nil => rfl
  | cons x xs ihc => simp [ihc]

/-- GInv: the endpoints dict represents a family segs of nonempty
segments partitioning the cities: the dict sends exactly the two ends of
each segment to it. -/
def GInv (cities : List City) (ep : Endpoints) (segs : List (List City)) : Prop :=
  List.Perm segs.flatten cities ∧
  (∀ S ∈ segs, S ≠ []) ∧
  (∀ X S, ep X = some S → S ∈ segs ∧ (S.head? = some X ∨ S.getLast? = some X)) ∧
  (∀ S ∈ segs, (∀ X, S.head? = some X → ep X = some S) ∧
    (∀ X, S.getLast? = some X → ep X = some S))

/-- LinksComplete: every pair of endpoints of two currently different
segments still appears (in one order) among the remaining links. -/
def LinksComplete (ep : Endpoints) (links : List (City × City)) : Prop :=
  ∀ X Y SX SY, ep X = some SX → ep Y = some SY → SX ≠ SY →
    (X, Y) ∈ links ∨ (Y, X) ∈ links

theorem join_segments_spec (ep : Endpoints) (A B : City) (Aseg Bseg : List City)
    (hA : ep A = some Aseg) (hB : ep B = some Bseg) :
    (join_segments ep A B).2 =
      (if Aseg.getLast? ≠ some A then Aseg.reverse else Aseg) ++
      (if Bseg.head? ≠ some B then Bseg.reverse else Bseg) ∧
    ∀ X, (join_segments ep A B).1 X =
      (if (join_segments ep A B).2.head? = some X ∨ (join_segments ep A B).2.getLast? = some X
       then some (join_segments ep A B).2
       else if X = A ∨ X = B then none else ep X) := by
  unfold join_segments
  rw [hA, hB]
  simp [Option.getD_some]

/-- Core preservation lemma for one accepted greedy join. -/
theorem greedy_join_preserves
    {cities : List City} (hnd : cities.Nodup)
    {ep : Endpoints} {segs : List (List City)} (inv : GInv cities ep segs)
    {A B : City} {Aseg Bseg : List City}
    (hA : ep A = some Aseg) (hB : ep B = some Bseg) (hABne : Aseg ≠ Bseg) :
    GInv cities (join_segments ep A B).1
      ((join_segments ep A B).2 :: ((segs.erase Aseg).erase Bseg)) ∧
    List.Perm (join_segments ep A B).2 (Aseg ++ Bseg) ∧
    segs.length = ((segs.erase Aseg).erase Bseg).length + 2 ∧
    (∀ X, (join_segments ep A B).2.head? = some X → ep X = some Aseg) ∧
    (∀ X, (join_segments ep A B).2.getLast? = some X → ep X = some Bseg) ∧
    (∀ S', (join_segments ep A B).1 A = some S' → S' = (join_segments ep A B).2) ∧
    (∀ S', (join_segments ep A B).1 B = some S' → S' = (join_segments ep A B).2) ∧
    (∀ X S', (join_segments ep A B).1 X = some S' → S' ≠ (join_segments ep A B).2 →
      ep X = some S' ∧ S' ≠ Aseg ∧ S' ≠ Bseg) := by
  obtain ⟨hflat, hne, hlook, hends⟩ := inv
  obtain ⟨hAin, hAend⟩ := hlook A Aseg hA
  obtain ⟨hBin, hBend⟩ := hlook B Bseg hB
  have hAne : Aseg ≠ [] := hne Aseg hAin
  have hBne : Bseg ≠ [] := hne Bseg hBin
  obtain ⟨hA'last, hA'perm, hA'head, hA'ends⟩ := orient_last Aseg A hAend
  obtain ⟨hB'head, hB'perm, hB'last, hB'ends⟩ := orient_head Bseg B hBend
  obtain ⟨hj2, hj1⟩ := join_segments_spec ep A B Aseg Bseg hA hB
  set A' := if Aseg.getLast? ≠ some A then Aseg.reverse else Aseg with hA'def
  set B' := if Bseg.head? ≠ some B then Bseg.reverse else Bseg with hB'def
  have hA'ne : A' ≠ [] := by
    intro h0
    rw [h0] at hA'perm
    exact hAne hA'perm.symm.eq_nil
  have hB'ne : B' ≠ [] := by
    intro h0
    rw [h0] at hB'perm
    exact hBne hB'perm.symm.eq_nil
  have hjperm : List.Perm (join_segments ep A B).2 (Aseg ++ Bseg) := by
    rw [hj2]
    exact List.Perm.append hA'perm hB'perm
  have hjhead : (join_segments ep A B).2.head? = A'.head? := by
    rw [hj2]
    exact head?_append_of_ne_nil A' B' hA'ne
  have hjlast : (join_segments ep A B).2.getLast? = B'.getLast? := by
    rw [hj2]
    exact List.getLast?_append_of_ne_nil A' hB'ne
  have hjne : (join_segments ep A B).2 ≠ [] := by
    intro h0
    rw [h0] at hjperm
    have := hjperm.symm.eq_nil
    rcases Aseg with _ | _
    · exact hAne rfl
    · cases this
  -- flatten of the original family is duplicate-free
  have hflnd : segs.flatten.Nodup := (hflat.nodup_iff).mpr hnd
  have hsegsnd : segs.Nodup := segs_nodup_of_flatten hflnd hne
  have hdisj := segs_disjoint_of_flatten hflnd
  have hBin' : Bseg ∈ segs.erase Aseg := (List.mem_erase_of_ne (Ne.symm hABne)).mpr hBin
  have hperm_segs : List.Perm segs (Aseg :: Bseg :: (segs.erase Aseg).erase Bseg) :=
    (perm_cons_erase_beq hAin).trans ((perm_cons_erase_beq hBin').cons Aseg)
  have hrest_mem : ∀ S ∈ (segs.erase Aseg).erase Bseg, S ∈ segs ∧ S ≠ Aseg ∧ S ≠ Bseg := by
    intro S hS
    have h1 := (List.Nodup.mem_erase_iff (hsegsnd.erase Aseg)).mp hS
    have h2 := (List.Nodup.mem_erase_iff hsegsnd).mp h1.2
    exact ⟨h2.2, h2.1, h1.1⟩
  have hAmem : A ∈ Aseg := by
    rcases hAend with h | h
    · exact List.mem_of_mem_head? h
    · exact List.mem_of_mem_getLast? h
  have hBmem : B ∈ Bseg := by
    rcases hBend with h | h
    · exact List.mem_of_mem_head? h
    · exact List.mem_of_mem_getLast? h
  have hjelem : ∀ x, x ∈ (join_segments ep A B).2 ↔ (x ∈ Aseg ∨ x ∈ Bseg) := by
    intro x
    rw [hjperm.mem_iff, List.mem_append]
  -- the joined segment maps back to the old segments at its two ends
  have hback_head : ∀ X, (join_segments ep A B).2.head? = some X → ep X = some Aseg := by
    intro X hX
    rw [hjhead] at hX
    rcases hA'head X hX with h | h
    · exact (hends Aseg hAin).1 X h
    · exact (hends Aseg hAin).2 X h
  have hback_last : ∀ X, (join_segments ep A B).2.getLast? = some X → ep X = some Bseg := by
    intro X hX
    rw [hjlast] at hX
    rcases hB'last X hX with h | h
    · exact (hends Bseg hBin).1 X h
    · exact (hends Bseg hBin).2 X h
  -- ends of the old two segments that survive are covered by the joined one
  have hAends_cover : ∀ X, (Aseg.head? = some X ∨ Aseg.getLast? = some X) →
      X = A ∨ (join_segments ep A B).2.head? = some X := by
    intro X hX
    rcases hA'ends X hX with h | h
    · right
      rw [hjhead]
      exact h
    · left
      rw [hA'last] at h
      exact ((Option.some.injEq _ _).mp h).symm
  have hBends_cover : ∀ X, (Bseg.head? = some X ∨ Bseg.getLast? = some X) →
      X = B ∨ (join_segments ep A B).2.getLast? = some X := by
    intro X hX
    rcases hB'ends X hX with h | h
    · left
      rw [hB'head] at h
      exact ((Option.some.injEq _ _).mp h).symm
    · right
      rw [hjlast]
      exact h
  -- characterization used by every downstream clause
  have hchar : ∀ X S', (join_segments ep A B).1 X = some S' →
      (S' = (join_segments ep A B).2 ∧
        ((join_segments ep A B).2.head? = some X ∨ (join_segments ep A B).2.getLast? = some X)) ∨
      (ep X = some S' ∧ X ≠ A ∧ X ≠ B ∧
        (join_segments ep A B).2.head? ≠ some X ∧
        (join_segments ep A B).2.getLast? ≠ some X) := by
    intro X S' hX
    rw [hj1 X] at hX
    by_cases hc1 : (join_segments ep A B).2.head? = some X ∨
        (join_segments ep A B).2.getLast? = some X
    · rw [if_pos hc1] at hX
      exact Or.inl ⟨((Option.some.injEq _ _).mp hX).symm, hc1⟩
    · rw [if_neg hc1] at hX
      by_cases hc2 : X = A ∨ X = B
      · rw [if_pos hc2] at hX
        cases hX
      · rw [if_neg hc2] at hX
        push_neg at hc1 hc2
        exact Or.inr ⟨hX, hc2.1, hc2.2, hc1.1, hc1.2⟩
  have hold_not_joined : ∀ X S', ep X = some S' → X ≠ A → X ≠ B →
      (join_segments ep A B).2.head? ≠ some X →
      (join_segments ep A B).2.getLast? ≠ some X → S' ≠ Aseg ∧ S' ≠ Bseg := by
    intro X S' hX hXA hXB hXh hXl
    obtain ⟨hSin, hSend⟩ := hlook X S' hX
    constructor
    · intro h0
      subst h0
      rcases hAends_cover X hSend with h | h
      · exact hXA h
      · exact hXh h
    · intro h0
      subst h0
      rcases hBends_cover X hSend with h | h
      · exact hXB h
      · exact hXl h
  refine ⟨⟨?_, ?_, ?_, ?_⟩, hjperm, ?_, hback_head, hback_last, ?_, ?_, ?_⟩
  · -- the new family still partitions the cities
    rw [List.flatten_cons]
    refine List.Perm.trans (List.Perm.append hjperm (List.Perm.refl _)) ?_
    have h1 : List.Perm segs.flatten
        ((Aseg :: Bseg :: (segs.erase Aseg).erase Bseg).flatten) := hperm_segs.flatten
    rw [List.flatten_cons, List.flatten_cons, ← List.append_assoc] at h1
    exact h1.symm.trans hflat
  · -- all segments stay nonempty
    intro S hS
    rcases List.mem_cons.mp hS with rfl | hS'
    · exact hjne
    · exact hne S (hrest_mem S hS').1
  · -- lookup soundness
    intro X S' hX
    rcases hchar X S' hX with ⟨rfl, hc⟩ | ⟨hX', hXA, hXB, hXh, hXl⟩
    · exact ⟨List.mem_cons_self _ _, hc⟩
    · obtain ⟨hSin, hSend⟩ := hlook X S' hX'
      obtain ⟨hSA, hSB⟩ := hold_not_joined X S' hX' hXA hXB hXh hXl
      refine ⟨List.mem_cons_of_mem _ ?_, hSend⟩
      exact (List.Nodup.mem_erase_iff (hsegsnd.erase Aseg)).mpr
        ⟨hSB, (List.Nodup.mem_erase_iff hsegsnd).mpr ⟨hSA, hSin⟩⟩
  · -- both ends of every segment point back to it
    intro S hS
    rcases List.mem_cons.mp hS with rfl | hS'
    · constructor
      · intro X hX
        rw [hj1 X, if_pos (Or.inl hX)]
      · intro X hX
        rw [hj1 X, if_pos (Or.inr hX)]
    · obtain ⟨hSsegs, hSA, hSB⟩ := hrest_mem S hS'
      have hXfacts : ∀ X, (S.head? = some X ∨ S.getLast? = some X) →
          (join_segments ep A B).1 X = some S := by
        intro X hXend
        have hXS : X ∈ S := by
          rcases hXend with h | h
          · exact List.mem_of_mem_head? h
          · exact List.mem_of_mem_getLast? h
        have hXnotA : X ∉ Aseg := hdisj S hSsegs Aseg hAin hSA X hXS
        have hXnotB : X ∉ Bseg := hdisj S hSsegs Bseg hBin hSB X hXS
        have hXnotJ : X ∉ (join_segments ep A B).2 := by
          rw [hjelem X]
          intro h0
          rcases h0 with h0 | h0
          · exact hXnotA h0
          · exact hXnotB h0
        have hXA : X ≠ A := by
          intro h0
          subst h0
          exact hXnotA hAmem
        have hXB : X ≠ B := by
          intro h0
          subst h0
          exact hXnotB hBmem
        rw [hj1 X]
        rw [if_neg (by
          intro h0
          rcases h0 with h0 | h0
          · exact hXnotJ (List.mem_of_mem_head? h0)
          · exact hXnotJ (List.mem_of_mem_getLast? h0))]
        rw [if_neg (by
          intro h0
          rcases h0 with h0 | h0
          · exact hXA h0
          · exact hXB h0)]
        rcases hXend with h | h
        · exact (hends S hSsegs).1 X h
        · exact (hends S hSsegs).2 X h
      exact ⟨fun X hX => hXfacts X (Or.inl hX), fun X hX => hXfacts X (Or.inr hX)⟩
  · -- one fewer segment after the join
    have := hperm_segs.length_eq
    simp only [List.length_cons] at this
    omega
  · -- a lookup of A after the join can only yield the joined segment
    intro S' hS'
    rcases hchar A S' hS' with ⟨rfl, _⟩ | ⟨_, hAA, _, _, _⟩
    · rfl
    · exact absurd rfl hAA
  · intro S' hS'
    rcases hchar B S' hS' with ⟨rfl, _⟩ | ⟨_, _, hBB, _, _⟩
    · rfl
    · exact absurd rfl hBB
  · -- a lookup that does not yield the joined segment is an old lookup
    intro X S' hX hS'ne
    rcases hchar X S' hX with ⟨rfl, _⟩ | ⟨hX', hXA, hXB, hXh, hXl⟩
    · exact absurd rfl hS'ne
    · exact ⟨hX', hold_not_joined X S' hX' hXA hXB hXh hXl⟩

theorem greedy_loop_cons_ss {n : ℕ} {ep : Endpoints} {A B : City} {Aseg Bseg : List City}
    {rest : List (City × City)} (hA : ep A = some Aseg) (hB : ep B = some Bseg) :
    greedy_loop n ep ((A, B) :: rest) =
      if Aseg ≠ Bseg then
        if (join_segments ep A B).2.length = n then some (join_segments ep A B).2
        else greedy_loop n (join_segments ep A B).1 rest
      else greedy_loop n ep rest := by
  show (match ep A, ep B with
    | some Aseg, some Bseg =>
      if Aseg ≠ Bseg then
        if (join_segments ep A B).2.length = n then some (join_segments ep A B).2
        else greedy_loop n (join_segments ep A B).1 rest
      else greedy_loop n ep rest
    | _, _ => greedy_loop n ep rest) = _
  rw [hA, hB]

theorem greedy_loop_cons_noneA {n : ℕ} {ep : Endpoints} {A B : City}
    {rest : List (City × City)} (hA : ep A = none) :
    greedy_loop n ep ((A, B) :: rest) = greedy_loop n ep rest := by
  show (match ep A, ep B with
    | some Aseg, some Bseg =>
      if Aseg ≠ Bseg then
        if (join_segments ep A B).2.length = n then some (join_segments ep A B).2
        else greedy_loop n (join_segments ep A B).1 rest
      else greedy_loop n ep rest
    | _, _ => greedy_loop n ep rest) = _
  rw [hA]

theorem greedy_loop_cons_noneB {n : ℕ} {ep : Endpoints} {A B : City} {Aseg : List City}
    {rest : List (City × City)} (hA : ep A = some Aseg) (hB : ep B = none) :
    greedy_loop n ep ((A, B) :: rest) = greedy_loop n ep rest := by
  show (match ep A, ep B with
    | some Aseg, some Bseg =>
      if Aseg ≠ Bseg then
        if (join_segments ep A B).2.length = n then some (join_segments ep A B).2
        else greedy_loop n (join_segments ep A B).1 rest
      else greedy_loop n ep rest
    | _, _ => greedy_loop n ep rest) = _
  rw [hA, hB]

/-- Main loop lemma for greedy_tsp: from any state whose segments
partition the cities into at least two pieces, with every cross-segment
endpoint pair still among the remaining links, the loop returns a tour
that is a permutation of the cities. -/
theorem greedy_loop_spec {cities : List City} (hnd : cities.Nodup) :
    ∀ (links : List (City × City)) (ep : Endpoints) (segs : List (List City)),
      GInv cities ep segs → LinksComplete ep links → 2 ≤ segs.length →
      ∃ t, greedy_loop cities.length ep links = some t ∧ List.Perm t cities := by
  intro links
  induction links with
  | nil =>
    intro ep segs inv hcomp hlen
    exfalso
    obtain ⟨hflat, hne, hlook, hends⟩ := inv
    have hsegsnd : segs.Nodup := segs_nodup_of_flatten ((hflat.nodup_iff).mpr hnd) hne
    rcases segs with _ | ⟨S, _ | ⟨T, rest⟩⟩
    · simp at hlen
    · simp at hlen
    · have hST : S ≠ T := by
        rcases List.nodup_cons.mp hsegsnd with ⟨hSnot, _⟩
        intro h0
        exact hSnot (h0 ▸ List.mem_cons_self T rest)
      obtain ⟨s, hs⟩ : ∃ s, S.head? = some s := by
        rcases S with _ | ⟨s, _⟩
        · exact absurd rfl (hne [] (List.mem_cons_self _ _))
        · exact ⟨s, rfl⟩
      obtain ⟨u, hu⟩ : ∃ u, T.head? = some u := by
        rcases T with _ | ⟨u, _⟩
        · exact absurd rfl (hne [] (List.mem_cons_of_mem _ (List.mem_cons_self _ _)))
        · exact ⟨u, rfl⟩
      have heps : ep s = some S :=
        (hends S (List.mem_cons_self _ _)).1 s hs
      have hepu : ep u = some T :=
        (hends T (List.mem_cons_of_mem _ (List.mem_cons_self _ _))).1 u hu
      rcases hcomp s u S T heps hepu hST with h | h
      · cases h
      · cases h
  | cons link rest ih =>
    intro ep segs inv hcomp hlen
    obtain ⟨A, B⟩ := link
    show ∃ t, greedy_loop cities.length ep ((A, B) :: rest) = some t ∧ List.Perm t cities
    rcases hA : ep A with _ | Aseg
    · -- the A lookup fails; the link is skipped
      have hcomp' : LinksComplete ep rest := by
        intro X Y SX SY hX hY hXY
        rcases hcomp X Y SX SY hX hY hXY with h | h
        · rcases List.mem_cons.mp h with h0 | h0
          · exfalso
            have : X = A := congrArg Prod.fst h0
            rw [this, hA] at hX
            cases hX
          · exact Or.inl h0
        · rcases List.mem_cons.mp h with h0 | h0
          · exfalso
            have : Y = A := congrArg Prod.fst h0
            rw [this, hA] at hY
            cases hY
          · exact Or.inr h0
      rcases ih ep segs inv hcomp' hlen with ⟨t, ht, hpt⟩
      refine ⟨t, ?_, hpt⟩
      rw [greedy_loop_cons_noneA hA]
      exact ht
    · rcases hB : ep B with _ | Bseg
      · -- the B lookup fails; the link is skipped
        have hcomp' : LinksComplete ep rest := by
          intro X Y SX SY hX hY hXY
          rcases hcomp X Y SX SY hX hY hXY with h | h
          · rcases List.mem_cons.mp h with h0 | h0
            · exfalso
              have : Y = B := congrArg Prod.snd h0
              rw [this, hB] at hY
              cases hY
            · exact Or.inl h0
          · rcases List.mem_cons.mp h with h0 | h0
            · exfalso
              have : X = B := congrArg Prod.snd h0
              rw [this, hB] at hX
              cases hX
            · exact Or.inr h0
        rcases ih ep segs inv hcomp' hlen with ⟨t, ht, hpt⟩
        refine ⟨t, ?_, hpt⟩
        rw [greedy_loop_cons_noneB hA hB]
        exact ht
      · by_cases hg : Aseg = Bseg
        · -- both endpoints are in the same segment; the link is skipped
          have hcomp' : LinksComplete ep rest := by
            intro X Y SX SY hX hY hXY
            rcases hcomp X Y SX SY hX hY hXY with h | h
            · rcases List.mem_cons.mp h with h0 | h0
              · exfalso
                have hXA : X = A := congrArg Prod.fst h0
                have hYB : Y = B := congrArg Prod.snd h0
                rw [hXA, hA] at hX
                rw [hYB, hB] at hY
                cases hX
                cases hY
                exact hXY hg
              · exact Or.inl h0
            · rcases List.mem_cons.mp h with h0 | h0
              · exfalso
                have hYA : Y = A := congrArg Prod.fst h0
                have hXB : X = B := congrArg Prod.snd h0
                rw [hYA, hA] at hY
                rw [hXB, hB] at hX
                cases hX
                cases hY
                exact hXY hg.symm
              · exact Or.inr h0
          rcases ih ep segs inv hcomp' hlen with ⟨t, ht, hpt⟩
          refine ⟨t, ?_, hpt⟩
          rw [greedy_loop_cons_ss hA hB, if_neg (not_not_intro hg)]
          exact ht
        · -- an accepted join
          obtain ⟨inv', hjperm, hlen'', hback_head, hback_last, hepA, hepB, hold⟩ :=
            greedy_join_preserves hnd inv hA hB hg
          have hflat' := inv'.1
          by_cases hfull : (join_segments ep A B).2.length = cities.length
          · -- the joined segment spans all cities: it is the tour
            refine ⟨(join_segments ep A B).2, ?_, ?_⟩
            · rw [greedy_loop_cons_ss hA hB, if_pos hg, if_pos hfull]
            · -- all other segments must be empty, hence absent
              have hrest_nil : (segs.erase Aseg).erase Bseg = [] := by
                by_contra h0
                rcases List.exists_mem_of_ne_nil _ h0 with ⟨S, hS⟩
                have hSne : S ≠ [] := inv'.2.1 S (List.mem_cons_of_mem _ hS)
                rcases List.exists_mem_of_ne_nil S hSne with ⟨x, hx⟩
                have hxflat : x ∈ ((join_segments ep A B).2 ::
                    ((segs.erase Aseg).erase Bseg)).flatten :=
                  List.mem_flatten.mpr ⟨S, List.mem_cons_of_mem _ hS, hx⟩
                have hlenflat := hflat'.length_eq
                rw [List.flatten_cons, List.length_append] at hlenflat
                have hplen : (((segs.erase Aseg).erase Bseg).flatten).length = 0 := by
                  omega
                rw [List.length_eq_zero] at hplen
                rw [List.flatten_cons, hplen] at hxflat
                rw [List.mem_append] at hxflat
                rcases hxflat with h | h
                · -- then x would be double-counted: impossible by lengths
                  exact absurd hplen (by
                    intro h1
                    have : x ∈ ([] : List City) := h1 ▸ List.mem_flatten.mpr ⟨S, hS, hx⟩
                    cases this)
                · cases h
              rw [hrest_nil] at hflat'
              rw [List.flatten_cons] at hflat'
              simpa using hflat'
          · -- keep joining: the invariant and completeness carry to the rest
            have hsegs2 : 2 ≤ ((join_segments ep A B).2 ::
                ((segs.erase Aseg).erase Bseg)).length := by
              rcases hnil : (segs.erase Aseg).erase Bseg with _ | ⟨S, rest'⟩
              · exfalso
                rw [hnil] at hflat'
                rw [List.flatten_cons] at hflat'
                have := hflat'.length_eq
                simp only [List.flatten_nil, List.append_nil] at this
                exact hfull this
              · simp
            have hcomp' : LinksComplete (join_segments ep A B).1 rest := by
              intro X Y SX' SY' hX hY hXY
              -- map each new lookup to an old one
              have hmapX : ∃ OX, ep X = some OX ∧
                  (SX' = (join_segments ep A B).2 → OX = Aseg ∨ OX = Bseg) ∧
                  (SX' ≠ (join_segments ep A B).2 → OX = SX' ∧ OX ≠ Aseg ∧ OX ≠ Bseg) := by
                by_cases hXj : SX' = (join_segments ep A B).2
                · subst hXj
                  rcases (inv'.2.2.1 X _ hX).2 with hxe | hxe
                  · exact ⟨Aseg, hback_head X hxe, fun _ => Or.inl rfl,
                      fun h0 => absurd rfl h0⟩
                  · exact ⟨Bseg, hback_last X hxe, fun _ => Or.inr rfl,
                      fun h0 => absurd rfl h0⟩
                · obtain ⟨hXold, hXnA, hXnB⟩ := hold X SX' hX hXj
                  exact ⟨SX', hXold, fun h0 => absurd h0 hXj, fun _ => ⟨rfl, hXnA, hXnB⟩⟩
              have hmapY : ∃ OY, ep Y = some OY ∧
                  (SY' = (join_segments ep A B).2 → OY = Aseg ∨ OY = Bseg) ∧
                  (SY' ≠ (join_segments ep A B).2 → OY = SY' ∧ OY ≠ Aseg ∧ OY ≠ Bseg) := by
                by_cases hYj : SY' = (join_segments ep A B).2
                · subst hYj
                  rcases (inv'.2.2.1 Y _ hY).2 with hye | hye
                  · exact ⟨Aseg, hback_head Y hye, fun _ => Or.inl rfl,
                      fun h0 => absurd rfl h0⟩
                  · exact ⟨Bseg, hback_last Y hye, fun _ => Or.inr rfl,
                      fun h0 => absurd rfl h0⟩
                · obtain ⟨hYold, hYnA, hYnB⟩ := hold Y SY' hY hYj
                  exact ⟨SY', hYold, fun h0 => absurd h0 hYj, fun _ => ⟨rfl, hYnA, hYnB⟩⟩
              obtain ⟨OX, hOX, hOXj, hOXnj⟩ := hmapX
              obtain ⟨OY, hOY, hOYj, hOYnj⟩ := hmapY
              have hOXY : OX ≠ OY := by
                by_cases hXj : SX' = (join_segments ep A B).2
                · by_cases hYj : SY' = (join_segments ep A B).2
                  · exact absurd (hXj.trans hYj.symm) hXY
                  · obtain ⟨hOYeq, hOYnA, hOYnB⟩ := hOYnj hYj
                    rcases hOXj hXj with h0 | h0 <;> rw [h0]
                    · exact fun hc => hOYnA hc.symm
                    · exact fun hc => hOYnB hc.symm
                · by_cases hYj : SY' = (join_segments ep A B).2
                  · obtain ⟨hOXeq, hOXnA, hOXnB⟩ := hOXnj hXj
                    rcases hOYj hYj with h0 | h0 <;> rw [h0]
                    · exact hOXnA
                    · exact hOXnB
                  · obtain ⟨hOXeq, _, _⟩ := hOXnj hXj
                    obtain ⟨hOYeq, _, _⟩ := hOYnj hYj
                    rw [hOXeq, hOYeq]
                    exact hXY
              rcases hcomp X Y OX OY hOX hOY hOXY with h | h
              · rcases List.mem_cons.mp h with h0 | h0
                · exfalso
                  have hXA : X = A := congrArg Prod.fst h0
                  have hYB : Y = B := congrArg Prod.snd h0
                  have h1 : SX' = (join_segments ep A B).2 := hepA SX' (hXA ▸ hX)
                  have h2 : SY' = (join_segments ep A B).2 := hepB SY' (hYB ▸ hY)
                  exact hXY (h1.trans h2.symm)
                · exact Or.inl h0
              · rcases List.mem_cons.mp h with h0 | h0
                · exfalso
                  have hYA : Y = A := congrArg Prod.fst h0
                  have hXB : X = B := congrArg Prod.snd h0
                  have h1 : SY' = (join_segments ep A B).2 := hepA SY' (hYA ▸ hY)
                  have h2 : SX' = (join_segments ep A B).2 := hepB SX' (hXB ▸ hX)
                  exact hXY (h2.trans h1.symm)
                · exact Or.inr h0
            rcases ih (join_segments ep A B).1
              ((join_segments ep A B).2 :: ((segs.erase Aseg).erase Bseg))
              inv' hcomp' hsegs2 with ⟨t, ht, hpt⟩
            refine ⟨t, ?_, hpt⟩
            rw [greedy_loop_cons_ss hA hB, if_pos hg, if_neg hfull]
            exact ht

/-- greedy_tsp returns a valid tour on every duplicate-free set of at
least two cities. -/
theorem greedy_tsp_valid (cities : List City) (hnd : cities.Nodup)
    (h2 : 2 ≤ cities.length) :
    ∃ t, greedy_tsp d cities = some t ∧ List.Perm t cities := by
  have hie : ∀ X, init_endpoints cities X = if X ∈ cities then some [X] else none :=
    fun X => rfl
  have hinv : GInv cities (init_endpoints cities) (cities.map (fun C => [C])) := by
    refine ⟨?_, ?_, ?_, ?_⟩
    · rw [flatten_map_singleton cities]
    · intro S hS
      rcases List.mem_map.mp hS with ⟨C, _, rfl⟩
      exact List.cons_ne_nil C []
    · intro X S hX
      rw [hie X] at hX
      by_cases hXc : X ∈ cities
      · rw [if_pos hXc] at hX
        cases hX
        exact ⟨List.mem_map.mpr ⟨X, hXc, rfl⟩, Or.inl rfl⟩
      · rw [if_neg hXc] at hX
        cases hX
    · intro S hS
      rcases List.mem_map.mp hS with ⟨C, hC, rfl⟩
      constructor
      · intro X hX
        cases hX
        rw [hie C, if_pos hC]
      · intro X hX
        cases hX
        show init_endpoints cities C = some [C]
        rw [hie C, if_pos hC]
  have hcomp : LinksComplete (init_endpoints cities)
      (shortest_links_first d cities) := by
    intro X Y SX SY hX hY hXY
    rw [hie X] at hX
    rw [hie Y] at hY
    by_cases hXc : X ∈ cities
    · by_cases hYc : Y ∈ cities
      · rw [if_pos hXc] at hX
        rw [if_pos hYc] at hY
        cases hX
        cases hY
        have hne : X ≠ Y := by
          intro h0
          exact hXY (by rw [h0])
        rcases combinations2_mem_of_mem cities X Y hXc hYc hne with h | h
        · exact Or.inl (List.mem_mergeSort.mpr h)
        · exact Or.inr (List.mem_mergeSort.mpr h)
      · rw [if_neg hYc] at hY
        cases hY
    · rw [if_neg hXc] at hX
      cases hX
  have hseglen : 2 ≤ (cities.map (fun C => [C])).length := by
    rw [List.length_map]
    exact h2
  exact greedy_loop_spec hnd (shortest_links_first d cities) _ _ hinv hcomp hseglen

/-- greedy_tsp on a one-city set iterates over no links at all and falls
off the loop, returning None rather than a tour. -/
theorem greedy_tsp_singleton (c : City) : greedy_tsp d [c] = none := by
  unfold greedy_tsp shortest_links_first
  rw [show combinations2 [c] = [] from rfl]
  rw [show ([] : List (City × City)).mergeSort
    (fun l1 l2 => decide (d l1.1 l1.2 ≤ d l2.1 l2.2)) = [] from by simp [List.mergeSort]]
  rfl

end Greedy

section MST

variable {α : Type} [LinearOrderedCancelAddCommMonoid α] (d : City → City → α)

/-- MTree models the Python dict {parent: [child, ...]} built by mst as an
association list in key-insertion order (Python dicts preserve insertion
order, and mst only ever appends new keys). -/
abbrev MTree := List (City × List City)

/-- The keys of the tree dict, in insertion order; len(tree) in Python is
their count. -/
def treeKeys (tree : MTree) : List City := tree.map Prod.fst

/-- tree.get(root, ()): the children list of root, or empty when root is
not a key. -/
def treeChildren (tree : MTree) (root : City) : List City :=
  ((tree.find? (fun e => e.1 == root)).map Prod.snd).getD []

/-- tree[A].append(B): extend the children list of key A in place. -/
def addChild (tree : MTree) (A B : City) : MTree :=
  tree.map (fun e => if e.1 = A then (e.1, e.2 ++ [B]) else e)

/-- first((A, B) for (A, B) in links if (A in tree) ^ (B in tree)): the
first link with exactly one endpoint among the tree's keys. -/
def crossing_link (tree : MTree) (links : List (City × City)) : Option (City × City) :=
  links.find? (fun l => (decide (l.1 ∈ treeKeys tree)) != (decide (l.2 ∈ treeKeys tree)))

/-- The while loop of mst: while the tree spans fewer keys than there are
vertexes, take the first link crossing the tree, orient it so the
tree-member comes first (if A not in tree: (A, B) = (B, A)), append the
outside endpoint to its parent's children and add it as a new key.  Each
iteration adds exactly one key, so fuel = len(vertexes) iterations always
suffice; none models the TypeError Python raises when no crossing link
exists (first returns None, which cannot be unpacked into (A, B)). -/
def mst_loop (links : List (City × City)) (n : ℕ) : ℕ → MTree → Option MTree
  | 0, tree => if tree.length < n then none else some tree
  | fuel + 1, tree =>
    if tree.length < n then
      match crossing_link tree links with
      | none => none
      | some (A, B) =>
        if A ∈ treeKeys tree then mst_loop links n fuel (addChild tree A B ++ [(B, [])])
        else mst_loop links n fuel (addChild tree B A ++ [(A, [])])
    else some tree

/-- mst: grow a spanning tree rooted at the set's first city along
shortest links first (Prim's algorithm).  On the empty set Python's first
returns None and the loop body never runs, producing the junk tree
{None: []} whose key is not a city; the embedding returns none there, a
case no construction path exercises. -/
def mst (vertexes : List City) : Option MTree :=
  match first vertexes with
  | none => none
  | some r =>
    mst_loop (shortest_links_first d vertexes) vertexes.length vertexes.length [(r, [])]

/-- preorder_traversal: yield the root, then recursively traverse each
child in tree.get(root, ()).  The fuel models the CPython recursion
limit; the depth of the tree built by mst_loop is bounded by the number
of its keys, so fuel = len(cities) reproduces the full traversal. -/
def preorder_traversal (tree : MTree) : ℕ → City → List City
  | 0, _ => []
  | fuel + 1, root =>
    root :: (treeChildren tree root).flatMap (preorder_traversal tree fuel)

/-- mst_tsp: build the minimum spanning tree and walk it in pre-order
starting from the first city (the root of the tree). -/
def mst_tsp (cities : List City) : Option Tour :=
  match mst d cities, first cities with
  | some tree, some r => some (preorder_traversal tree cities.length r)
  | _, _ => none

theorem treeKeys_length (tree : MTree) : (treeKeys tree).length = tree.length :=
  List.length_map tree Prod.fst

theorem treeChildren_not_mem (tree : MTree) (X : City) (h : X ∉ treeKeys tree) :
    treeChildren tree X = [] := by
  have hf : tree.find? (fun e => e.1 == X) = none := by
    rw [List.find?_eq_none]
    intro e he hbe
    exact h (List.mem_map.mpr ⟨e, he, by simpa using hbe⟩)
  rw [treeChildren, hf]
  rfl

theorem find?_key_getElem (tree : MTree) (hnd : (treeKeys tree).Nodup) :
    ∀ (i : ℕ) (hi : i < tree.length),
      tree.find? (fun e => e.1 == (tree[i]).1) = some tree[i] := by
  induction tree with
  | nil => intro i hi; exact absurd hi (by simp)
  | cons e rest ih =>
    intro i hi
    simp only [treeKeys, List.map_cons, List.nodup_cons] at hnd
    rcases i with _ | i
    · exact List.find?_cons_of_pos rest (by simp)
    · have hi' : i < rest.length := by simpa using hi
      have hget : ((e :: rest)[i + 1]) = rest[i] := rfl
      have hne : ¬ (e.1 == (rest[i]).1) = true := by
        intro h0
        exact hnd.1 (by
          rw [show e.1 = (rest[i]).1 from by simpa using h0]
          exact List.mem_map.mpr ⟨rest[i], List.getElem_mem hi', rfl⟩)
      rw [hget, List.find?_cons_of_neg rest hne]
      exact ih hnd.2 i hi'

theorem treeChildren_getElem (tree : MTree) (hnd : (treeKeys tree).Nodup) (i : ℕ)
    (hi : i < tree.length) :
    treeChildren tree (tree[i]).1 = (tree[i]).2 := by
  rw [treeChildren, find?_key_getElem tree hnd i hi]
  rfl

/-- Every children list of the tree points strictly forward: each child is
a key introduced at a later index.  mst_loop preserves this because the
new key is appended at the end. -/
def FW (tree : MTree) : Prop :=
  ∀ (i : ℕ) (hi : i < tree.length), ∀ c ∈ (tree[i]).2,
    ∃ (j : ℕ) (hj : j < tree.length), i < j ∧ (tree[j]).1 = c

theorem flatMap_congr {γ δ : Type} (l : List γ) (f g : γ → List δ)
    (h : ∀ c ∈ l, f c = g c) : l.flatMap f = l.flatMap g := by
  induction l with
  | nil => rfl
  | cons x xs ih =>
    rw [List.flatMap_cons, List.flatMap_cons, h x (List.mem_cons_self x xs),
      ih (fun c hc => h c (List.mem_cons_of_mem x hc))]

/-- Once the fuel covers the distance from a key's index to the end of the
tree, preorder_traversal no longer depends on it: children point forward,
so the recursion depth below index i is at most tree.length - i. -/
theorem preorder_stable (tree : MTree) (hnd : (treeKeys tree).Nodup) (hFW : FW tree) :
    ∀ (k i : ℕ) (hi : i < tree.length), tree.length - i ≤ k →
      ∀ fuel1 fuel2, tree.length - i ≤ fuel1 → tree.length - i ≤ fuel2 →
        preorder_traversal tree fuel1 (tree[i]).1 =
        preorder_traversal tree fuel2 (tree[i]).1 := by
  intro k
  induction k with
  | zero => intro i hi hk _ _ _ _; omega
  | succ k ih =>
    intro i hi hk fuel1 fuel2 h1 h2
    rcases fuel1 with _ | f1
    · omega
    rcases fuel2 with _ | f2
    · omega
    rw [preorder_traversal, preorder_traversal, treeChildren_getElem tree hnd i hi]
    congr 1
    apply flatMap_congr
    intro c hc
    obtain ⟨j, hj, hij, hkey⟩ := hFW i hi c hc
    rw [← hkey]
    exact ih j hj (by omega) f1 f2 (by omega) (by omega)

/-- Unfolding of preorder_traversal at a key, with the same (large enough)
fuel on both sides. -/
theorem preorder_unfold (tree : MTree) (hnd : (treeKeys tree).Nodup) (hFW : FW tree)
    (i : ℕ) (hi : i < tree.length) (fuel : ℕ) (hf : tree.length - i ≤ fuel) :
    preorder_traversal tree fuel (tree[i]).1 =
      (tree[i]).1 :: (tree[i]).2.flatMap (fun c => preorder_traversal tree fuel c) := by
  rcases fuel with _ | f
  · omega
  rw [preorder_traversal, treeChildren_getElem tree hnd i hi]
  congr 1
  apply flatMap_congr
  intro c hc
  obtain ⟨j, hj, hij, hkey⟩ := hFW i hi c hc
  rw [← hkey]
  exact preorder_stable tree hnd hFW tree.length j hj (by omega) f (f + 1)
    (by omega) (by omega)

theorem addChild_fst (A B : City) (e : City × List City) :
    ((if e.1 = A then (e.1, e.2 ++ [B]) else e) : City × List City).1 = e.1 := by
  by_cases h : e.1 = A <;> simp [h]

theorem treeKeys_addChild (tree : MTree) (A B : City) :
    treeKeys (addChild tree A B) = treeKeys tree := by
  rw [treeKeys, addChild, List.map_map]
  exact List.map_congr_left (fun e _ => addChild_fst A B e)

theorem treeKeys_append (t1 t2 : MTree) :
    treeKeys (t1 ++ t2) = treeKeys t1 ++ treeKeys t2 :=
  List.map_append Prod.fst t1 t2

theorem treeKeys_insert (tree : MTree) (A B : City) :
    treeKeys (addChild tree A B ++ [(B, [])]) = treeKeys tree ++ [B] := by
  rw [treeKeys_append, treeKeys_addChild]
  rfl

theorem insert_length (tree : MTree) (A B : City) :
    (addChild tree A B ++ [(B, [])]).length = tree.length + 1 := by
  simp [addChild]

theorem insert_getElem_lt (tree : MTree) (A B : City) (i : ℕ) (hi : i < tree.length)
    (hi2 : i < (addChild tree A B ++ [(B, [])]).length) :
    (addChild tree A B ++ [(B, [])])[i] =
      if (tree[i]).1 = A then ((tree[i]).1, (tree[i]).2 ++ [B]) else tree[i] := by
  rw [List.getElem_append_left (by simpa [addChild] using hi)]
  simp only [addChild, List.getElem_map]

theorem insert_getElem_last (tree : MTree) (A B : City)
    (h2 : tree.length < (addChild tree A B ++ [(B, [])]).length) :
    (addChild tree A B ++ [(B, [])])[tree.length] = (B, []) := by
  rw [List.getElem_append_right (by simp [addChild])]
  simp [addChild]

theorem treeKeys_insert_nodup (tree : MTree) (A B : City)
    (hnd : (treeKeys tree).Nodup) (hB : B ∉ treeKeys tree) :
    (treeKeys (addChild tree A B ++ [(B, [])])).Nodup := by
  rw [treeKeys_insert]
  exact List.Nodup.append hnd (List.nodup_singleton B)
    (by simpa [List.disjoint_singleton] using hB)

theorem FW_insert (tree : MTree) (A B : City) (hFW : FW tree) :
    FW (addChild tree A B ++ [(B, [])]) := by
  have hlen : (addChild tree A B ++ [(B, [])]).length = tree.length + 1 :=
    insert_length tree A B
  intro i hi c hc
  by_cases hti : i < tree.length
  · rw [insert_getElem_lt tree A B i hti hi] at hc
    by_cases hiA : (tree[i]).1 = A
    · rw [if_pos hiA] at hc
      rcases List.mem_append.mp hc with hc | hc
      · obtain ⟨j, hj, hij, hkey⟩ := hFW i hti c hc
        refine ⟨j, by omega, hij, ?_⟩
        rw [insert_getElem_lt tree A B j hj (by omega)]
        by_cases hjA : (tree[j]).1 = A
        · rw [if_pos hjA]; exact hkey
        · rw [if_neg hjA]; exact hkey
      · have hcB : c = B := by simpa using hc
        refine ⟨tree.length, by omega, hti, ?_⟩
        rw [insert_getElem_last tree A B (by omega)]
        simp [hcB]
    · rw [if_neg hiA] at hc
      obtain ⟨j, hj, hij, hkey⟩ := hFW i hti c hc
      refine ⟨j, by omega, hij, ?_⟩
      rw [insert_getElem_lt tree A B j hj (by omega)]
      by_cases hjA : (tree[j]).1 = A
      · rw [if_pos hjA]; exact hkey
      · rw [if_neg hjA]; exact hkey
  · have hieq : i = tree.length := by omega
    subst hieq
    rw [insert_getElem_last tree A B (by omega)] at hc
    simp at hc

theorem treeChildren_cons (y : City × List City) (l : MTree) (X : City) :
    treeChildren (y :: l) X = if y.1 = X then y.2 else treeChildren l X := by
  by_cases h : y.1 = X
  · rw [if_pos h, treeChildren, List.find?_cons_of_pos l (by simpa using h)]
    rfl
  · rw [if_neg h, treeChildren, List.find?_cons_of_neg l (by simpa using h), treeChildren]

theorem treeChildren_insert (A B : City) :
    ∀ (tree : MTree), B ∉ treeKeys tree → ∀ X ∈ treeKeys tree,
      treeChildren (addChild tree A B ++ [(B, [])]) X =
        treeChildren tree X ++ (if X = A then [B] else []) := by
  intro tree
  induction tree with
  | nil => intro _ X hX; cases hX
  | cons e rest ih =>
    intro hB X hX
    have hBr : B ∉ treeKeys rest := fun h =>
      hB (by rw [treeKeys, List.map_cons]; exact List.mem_cons_of_mem _ h)
    have hcons : addChild (e :: rest) A B ++ [(B, [])] =
        (if e.1 = A then (e.1, e.2 ++ [B]) else e) ::
          (addChild rest A B ++ [(B, [])]) := rfl
    rw [hcons, treeChildren_cons, treeChildren_cons, addChild_fst]
    by_cases hXe : e.1 = X
    · rw [if_pos hXe, if_pos hXe]
      by_cases heA : e.1 = A
      · rw [if_pos heA, if_pos (by rw [← hXe]; exact heA)]
      · rw [if_neg heA, if_neg (fun h => heA (by rw [hXe]; exact h)), List.append_nil]
    · rw [if_neg hXe, if_neg hXe]
      have hXr : X ∈ treeKeys rest := by
        rw [treeKeys, List.map_cons] at hX
        rcases List.mem_cons.mp hX with h | h
        · exact absurd h.symm hXe
        · exact h
      exact ih hBr X hXr

theorem treeChildren_insert_new (A B : City) :
    ∀ (tree : MTree), B ∉ treeKeys tree →
      treeChildren (addChild tree A B ++ [(B, [])]) B = [] := by
  intro tree
  induction tree with
  | nil =>
    intro _
    rw [show addChild ([] : MTree) A B ++ [(B, [])] = [(B, [])] from rfl,
      treeChildren_cons, if_pos rfl]
  | cons e rest ih =>
    intro hB
    have hBr : B ∉ treeKeys rest := fun h =>
      hB (by rw [treeKeys, List.map_cons]; exact List.mem_cons_of_mem _ h)
    have hBe : e.1 ≠ B := fun h =>
      hB (by rw [treeKeys, List.map_cons, ← h]; exact List.mem_cons_self _ _)
    have hcons : addChild (e :: rest) A B ++ [(B, [])] =
        (if e.1 = A then (e.1, e.2 ++ [B]) else e) ::
          (addChild rest A B ++ [(B, [])]) := rfl
    rw [hcons, treeChildren_cons, addChild_fst, if_neg hBe]
    exact ih hBr

theorem count_flatMap (A : City) (l : List City) (f : City → List City) :
    (l.flatMap f).count A = (l.map (fun c => (f c).count A)).sum := by
  induction l with
  | nil => rfl
  | cons x xs ih =>
    rw [List.flatMap_cons, List.count_append, List.map_cons, List.sum_cons, ih]

theorem perm_append_interchange {γ : Type} (l1 r1 l2 r2 : List γ) :
    List.Perm ((l1 ++ r1) ++ (l2 ++ r2)) ((l1 ++ l2) ++ (r1 ++ r2)) := by
  have h1 : (l1 ++ r1) ++ (l2 ++ r2) = l1 ++ ((r1 ++ l2) ++ r2) := by
    simp [List.append_assoc]
  have h2 : (l1 ++ l2) ++ (r1 ++ r2) = l1 ++ ((l2 ++ r1) ++ r2) := by
    simp [List.append_assoc]
  rw [h1, h2]
  exact List.Perm.append_left l1 (List.Perm.append_right r2 List.perm_append_comm)

theorem flatMap_perm_insert (B : City) (cs : List City) (g f : City → List City)
    (m : City → ℕ) (h : ∀ c ∈ cs, List.Perm (g c) (f c ++ List.replicate (m c) B)) :
    List.Perm (cs.flatMap g)
      (cs.flatMap f ++ List.replicate ((cs.map m).sum) B) := by
  induction cs with
  | nil => exact List.Perm.refl []
  | cons c cs ih =>
    rw [List.flatMap_cons, List.flatMap_cons, List.map_cons, List.sum_cons,
      List.replicate_add]
    refine ((h c (List.mem_cons_self c cs)).append
      (ih (fun x hx => h x (List.mem_cons_of_mem c hx)))).trans ?_
    exact perm_append_interchange (f c) (List.replicate (m c) B) (cs.flatMap f)
      (List.replicate ((cs.map m).sum) B)

/-- Effect of one mst_loop step on the traversal, starting anywhere: adding
B as a fresh key and as a new child of A inserts one copy of B per visit
of A.  Stated with the exact canonical fuels of both trees. -/
theorem preorder_insert (tree : MTree) (A B : City)
    (hnd : (treeKeys tree).Nodup) (hFW : FW tree) (hB : B ∉ treeKeys tree) :
    ∀ (k i : ℕ) (hi : i < tree.length), tree.length - i ≤ k →
      List.Perm
        (preorder_traversal (addChild tree A B ++ [(B, [])]) (tree.length + 1) (tree[i]).1)
        (preorder_traversal tree tree.length (tree[i]).1 ++
          List.replicate ((preorder_traversal tree tree.length (tree[i]).1).count A) B) := by
  have hnd2 := treeKeys_insert_nodup tree A B hnd hB
  have hFW2 := FW_insert tree A B hFW
  have hlen2 := insert_length tree A B
  intro k
  induction k with
  | zero => intro i hi hk; omega
  | succ k ih =>
    intro i hi hk
    have hXkey : (tree[i]).1 ∈ treeKeys tree :=
      List.mem_map.mpr ⟨tree[i], List.getElem_mem hi, rfl⟩
    have hi2 : i < (addChild tree A B ++ [(B, [])]).length := by omega
    have hT2i := insert_getElem_lt tree A B i hi hi2
    have hfst : ((addChild tree A B ++ [(B, [])])[i]).1 = (tree[i]).1 := by
      rw [hT2i]
      by_cases h : (tree[i]).1 = A
      · rw [if_pos h]
      · rw [if_neg h]
    have hsnd : ((addChild tree A B ++ [(B, [])])[i]).2 =
        if (tree[i]).1 = A then (tree[i]).2 ++ [B] else (tree[i]).2 := by
      rw [hT2i, apply_ite Prod.snd]
    have hLHS := preorder_unfold (addChild tree A B ++ [(B, [])]) hnd2 hFW2 i
      (by omega) (tree.length + 1) (by omega)
    rw [hfst, hsnd] at hLHS
    have hRHS := preorder_unfold tree hnd hFW i hi tree.length (by omega)
    rw [hLHS, hRHS]
    have hchild : ∀ c ∈ (tree[i]).2,
        List.Perm
          (preorder_traversal (addChild tree A B ++ [(B, [])]) (tree.length + 1) c)
          (preorder_traversal tree tree.length c ++
            List.replicate ((preorder_traversal tree tree.length c).count A) B) := by
      intro c hc
      obtain ⟨j, hj, hij, hkey⟩ := hFW i hi c hc
      rw [← hkey]
      exact ih j hj (by omega)
    have hflat := flatMap_perm_insert B (tree[i]).2
      (fun c => preorder_traversal (addChild tree A B ++ [(B, [])]) (tree.length + 1) c)
      (fun c => preorder_traversal tree tree.length c)
      (fun c => (preorder_traversal tree tree.length c).count A) hchild
    have hcount : ((tree[i]).2.flatMap
        (fun c => preorder_traversal tree tree.length c)).count A =
        ((tree[i]).2.map
          (fun c => (preorder_traversal tree tree.length c).count A)).sum :=
      count_flatMap A (tree[i]).2 (fun c => preorder_traversal tree tree.length c)
    by_cases hXA : (tree[i]).1 = A
    · rw [if_pos hXA]
      have hgB : preorder_traversal (addChild tree A B ++ [(B, [])])
          (tree.length + 1) B = [B] := by
        rw [preorder_traversal, treeChildren_insert_new A B tree hB]
        rfl
      have hcnt : ((tree[i]).1 ::
          (tree[i]).2.flatMap (fun c => preorder_traversal tree tree.length c)).count A =
          ((tree[i]).2.map
            (fun c => (preorder_traversal tree tree.length c).count A)).sum + 1 := by
        rw [List.count_cons, hcount, if_pos (by simp [hXA])]
      rw [hcnt, List.flatMap_append, List.cons_append, List.replicate_add,
        List.replicate_one]
      refine List.Perm.cons (tree[i]).1 ?_
      have hsingle : ([B] : List City).flatMap
          (fun c => preorder_traversal (addChild tree A B ++ [(B, [])])
            (tree.length + 1) c) = [B] := by
        rw [List.flatMap_cons, List.flatMap_nil, List.append_nil, hgB]
      rw [hsingle]
      refine (List.Perm.append_right [B] hflat).trans ?_
      rw [List.append_assoc]
    · rw [if_neg hXA]
      have hcnt : ((tree[i]).1 ::
          (tree[i]).2.flatMap (fun c => preorder_traversal tree tree.length c)).count A =
          ((tree[i]).2.map
            (fun c => (preorder_traversal tree tree.length c).count A)).sum := by
        rw [List.count_cons, hcount, if_neg (by simp [hXA]), Nat.add_zero]
      rw [hcnt, List.cons_append]
      exact List.Perm.cons (tree[i]).1 hflat

/-- Invariant of the mst while loop: the keys are duplicate-free vertexes,
children point forward, the first key is the root r, and the pre-order
traversal at canonical fuel visits exactly the keys. -/
def MInv (r : City) (vertexes : List City) (tree : MTree) : Prop :=
  (treeKeys tree).Nodup ∧ FW tree ∧ treeKeys tree ⊆ vertexes ∧
  (treeKeys tree).head? = some r ∧
  List.Perm (preorder_traversal tree tree.length r) (treeKeys tree)

theorem MInv_step (r : City) (vertexes : List City) (tree : MTree) (A B : City)
    (hInv : MInv r vertexes tree) (hA : A ∈ treeKeys tree) (hB : B ∉ treeKeys tree)
    (hBv : B ∈ vertexes) :
    MInv r vertexes (addChild tree A B ++ [(B, [])]) := by
  obtain ⟨hnd, hFW, hsub, hhead, hperm⟩ := hInv
  refine ⟨treeKeys_insert_nodup tree A B hnd hB, FW_insert tree A B hFW, ?_, ?_, ?_⟩
  · rw [treeKeys_insert]
    intro x hx
    rcases List.mem_append.mp hx with h | h
    · exact hsub h
    · rw [List.mem_singleton.mp h]
      exact hBv
  · have hne : treeKeys tree ≠ [] := by
      intro h0
      rw [h0] at hhead
      cases hhead
    rw [treeKeys_insert, head?_append_of_ne_nil _ _ hne]
    exact hhead
  · have hne : treeKeys tree ≠ [] := by
      intro h0
      rw [h0] at hhead
      cases hhead
    have hlen0 : 0 < tree.length := by
      have h1 := List.length_pos.mpr hne
      have h2 := treeKeys_length tree
      omega
    have hr0 : (tree[0]).1 = r := by
      rcases tree with _ | ⟨e, rest⟩
      · exact absurd hlen0 (by simp)
      · have : some e.1 = some r := by simpa [treeKeys] using hhead
        simpa using this
    have hins := preorder_insert tree A B hnd hFW hB tree.length 0 hlen0 (by omega)
    rw [hr0] at hins
    have hcA : (preorder_traversal tree tree.length r).count A = 1 := by
      rw [hperm.count_eq A]
      exact List.count_eq_one_of_mem hnd hA
    rw [hcA, List.replicate_one] at hins
    rw [insert_length, treeKeys_insert]
    exact hins.trans (List.Perm.append_right [B] hperm)

theorem mst_loop_spec (vertexes : List City) (hvnd : vertexes.Nodup) (r : City) :
    ∀ (fuel : ℕ) (tree : MTree), MInv r vertexes tree →
      vertexes.length ≤ tree.length + fuel →
      ∃ t, mst_loop (shortest_links_first d vertexes) vertexes.length fuel tree = some t ∧
        MInv r vertexes t ∧ t.length = vertexes.length := by
  intro fuel
  induction fuel with
  | zero =>
    intro tree hInv hfuel
    have hle : tree.length ≤ vertexes.length := by
      have h1 := (List.subperm_of_subset hInv.1 hInv.2.2.1).length_le
      have h2 := treeKeys_length tree
      omega
    have heq : tree.length = vertexes.length := by omega
    refine ⟨tree, ?_, hInv, heq⟩
    rw [mst_loop, if_neg (by omega)]
  | succ f ih =>
    intro tree hInv hfuel
    have hle : tree.length ≤ vertexes.length := by
      have h1 := (List.subperm_of_subset hInv.1 hInv.2.2.1).length_le
      have h2 := treeKeys_length tree
      omega
    by_cases hlt : tree.length < vertexes.length
    · obtain ⟨hnd, hFW, hsub, hhead, hperm⟩ := hInv
      have hv : ∃ v ∈ vertexes, v ∉ treeKeys tree := by
        by_contra h0
        push_neg at h0
        have h1 := (List.subperm_of_subset hvnd (fun x hx => h0 x hx)).length_le
        have h2 := treeKeys_length tree
        omega
      obtain ⟨v, hvv, hvk⟩ := hv
      have hne : treeKeys tree ≠ [] := by
        intro h0
        rw [h0] at hhead
        cases hhead
      have hrk : r ∈ treeKeys tree := by
        rcases hk : treeKeys tree with _ | ⟨x, xs⟩
        · exact absurd hk hne
        · rw [hk] at hhead
          have hxr : x = r := by simpa using hhead
          rw [hxr]
          exact List.mem_cons_self _ _
      have hrv : r ∈ vertexes := hsub hrk
      have hrvne : r ≠ v := fun h0 => hvk (h0 ▸ hrk)
      have hcross : ∃ p, crossing_link tree (shortest_links_first d vertexes) = some p := by
        rcases combinations2_mem_of_mem vertexes r v hrv hvv hrvne with h | h
        · have hmem : (r, v) ∈ shortest_links_first d vertexes := List.mem_mergeSort.mpr h
          have hs : (crossing_link tree (shortest_links_first d vertexes)).isSome := by
            rw [crossing_link, List.find?_isSome]
            exact ⟨(r, v), hmem, by simp [hrk, hvk]⟩
          exact Option.isSome_iff_exists.mp hs
        · have hmem : (v, r) ∈ shortest_links_first d vertexes := List.mem_mergeSort.mpr h
          have hs : (crossing_link tree (shortest_links_first d vertexes)).isSome := by
            rw [crossing_link, List.find?_isSome]
            exact ⟨(v, r), hmem, by simp [hrk, hvk]⟩
          exact Option.isSome_iff_exists.mp hs
      obtain ⟨⟨A, B⟩, hfind⟩ := hcross
      have hABl : (A, B) ∈ shortest_links_first d vertexes :=
        List.mem_of_find?_eq_some hfind
      have hABp := List.find?_some hfind
      have hABc : (A, B) ∈ combinations2 vertexes := List.mem_mergeSort.mp hABl
      have hABv := combinations2_subset vertexes (A, B) hABc
      have hxor : (A ∈ treeKeys tree) ↔ ¬ (B ∈ treeKeys tree) := by
        by_cases h1 : A ∈ treeKeys tree <;> by_cases h2 : B ∈ treeKeys tree <;>
          simp [h1, h2] at hABp ⊢
      rw [mst_loop, if_pos hlt, hfind]
      by_cases hAk : A ∈ treeKeys tree
      · have hBk : B ∉ treeKeys tree := hxor.mp hAk
        have hInv2 := MInv_step r vertexes tree A B ⟨hnd, hFW, hsub, hhead, hperm⟩
          hAk hBk hABv.2
        obtain ⟨t, ht, hIt, hlt2⟩ := ih (addChild tree A B ++ [(B, [])]) hInv2
          (by rw [insert_length]; omega)
        refine ⟨t, ?_, hIt, hlt2⟩
        show (if A ∈ treeKeys tree then
            mst_loop (shortest_links_first d vertexes) vertexes.length f
              (addChild tree A B ++ [(B, [])])
          else
            mst_loop (shortest_links_first d vertexes) vertexes.length f
              (addChild tree B A ++ [(A, [])])) = some t
        rw [if_pos hAk]
        exact ht
      · have hBk : B ∈ treeKeys tree := by
          by_contra h0
          exact hAk (hxor.mpr h0)
        have hInv2 := MInv_step r vertexes tree B A ⟨hnd, hFW, hsub, hhead, hperm⟩
          hBk hAk hABv.1
        obtain ⟨t, ht, hIt, hlt2⟩ := ih (addChild tree B A ++ [(A, [])]) hInv2
          (by rw [insert_length]; omega)
        refine ⟨t, ?_, hIt, hlt2⟩
        show (if A ∈ treeKeys tree then
            mst_loop (shortest_links_first d vertexes) vertexes.length f
              (addChild tree A B ++ [(B, [])])
          else
            mst_loop (shortest_links_first d vertexes) vertexes.length f
              (addChild tree B A ++ [(A, [])])) = some t
        rw [if_neg hAk]
        exact ht
    · have heq : tree.length = vertexes.length := by omega
      refine ⟨tree, ?_, hInv, heq⟩
      rw [mst_loop, if_neg hlt]

/-- mst_tsp returns a valid tour on every nonempty duplicate-free Cities
set: the spanning tree spans all cities exactly once and the pre-order
walk visits each key exactly once. -/
theorem mst_tsp_valid (cities : List City) (hnd : cities.Nodup) (hne : cities ≠ []) :
    ∃ t, mst_tsp d cities = some t ∧ List.Perm t cities := by
  rcases cities with _ | ⟨r, rest⟩
  · exact absurd rfl hne
  have hfirst : first (r :: rest) = some r := rfl
  have hInv0 : MInv r (r :: rest) [(r, [])] := by
    refine ⟨by simp [treeKeys], ?_, ?_, rfl, ?_⟩
    · intro i hi c hc
      have hi0 : i = 0 := by simpa using hi
      subst hi0
      simp at hc
    · intro x hx
      have hxr : x = r := by simpa [treeKeys] using hx
      rw [hxr]
      exact List.mem_cons_self _ _
    · have h1 : preorder_traversal [(r, [])] 1 r = [r] := by
        rw [preorder_traversal, treeChildren_cons, if_pos rfl]
        rfl
      rw [show ([(r, [])] : MTree).length = 1 from rfl, h1]
      exact List.Perm.refl [r]
  obtain ⟨t, ht, hIt, hlen⟩ := mst_loop_spec d (r :: rest) hnd r (r :: rest).length
    [(r, [])] hInv0 (by simp)
  have hmst : mst d (r :: rest) = some t := by
    unfold mst
    show mst_loop (shortest_links_first d (r :: rest)) (r :: rest).length
      (r :: rest).length [(r, [])] = some t
    exact ht
  obtain ⟨hndt, hFWt, hsubt, hheadt, hpermt⟩ := hIt
  have hkeysperm : List.Perm (treeKeys t) (r :: rest) := by
    refine List.Subperm.perm_of_length_le (List.subperm_of_subset hndt hsubt) ?_
    rw [treeKeys_length, hlen]
  refine ⟨preorder_traversal t (r :: rest).length r, ?_, ?_⟩
  · unfold mst_tsp
    rw [hmst, hfirst]
  · rw [← hlen]
    exact hpermt.trans hkeysperm

end MST

section Run

/-- ResultR models the Result namedtuple of the harness, keeping the
fields the control flow of run reads: the tour and the cities it was built
for.  The tsp/opt function identities and the timings do not affect which
statements execute and are dropped. -/
structure ResultR where
  tourR : Tour
  citiesR : List City

/-- History models the global all_results = defaultdict(list) as a map
from a Cities set to its list of recorded results (empty by default). -/
abbrev History := List City → List ResultR

/-- all_results[cities].append(result). -/
def all_results_append (h : History) (cities : List City) (res : ResultR) : History :=
  fun cs => if cs = cities then h cs ++ [res] else h cs

/-- The errors a run can surface: an exception escaping tsp(cities)
itself (modelled by the algorithm returning none), or the AssertionError
of assert valid_tour(tour, cities). -/
inductive RunErr where
  | tspFailed : RunErr
  | assertFailed : RunErr
deriving DecidableEq, Repr

/-- The opt=None branch of run: build the tour, append the Result to the
history, then assert valid_tour.  The returned history reflects the
state of all_results when control leaves run, also when the assert
raises; timings are dropped. -/
def run_base (tsp : List City → Option Tour) (cities : List City) (history : History) :
    History × Except RunErr ResultR :=
  match tsp cities with
  | none => (history, Except.error RunErr.tspFailed)
  | some tour =>
    let result : ResultR := ⟨tour, cities⟩
    let history2 := all_results_append history cities result
    if valid_tour tour cities then (history2, Except.ok result)
    else (history2, Except.error RunErr.assertFailed)

/-- run(tsp, cities, opt): with an optimizer, first recursively run the
unoptimized version (which records its own Result), then optimize its
tour, record, and assert.  A fresh top-level call is modelled (the @cache
of run only changes behavior on repeated identical calls). -/
def run (tsp : List City → Option Tour) (cities : List City)
    (opt : Option (Tour → Tour)) (history : History) :
    History × Except RunErr ResultR :=
  match opt with
  | none => run_base tsp cities history
  | some o =>
    match run_base tsp cities history with
    | (h1, Except.error e) => (h1, Except.error e)
    | (h1, Except.ok res0) =>
      let tour := o res0.tourR
      let result : ResultR := ⟨tour, cities⟩
      let history2 := all_results_append h1 cities result
      if valid_tour tour cities then (history2, Except.ok result)
      else (history2, Except.error RunErr.assertFailed)

/-- The tour whose validity the final assert of run(tsp, cities, opt)
checks: tsp(cities) directly, or opt applied to the recursive result's
tour (reached only when the recursive run's own assert passed). -/
def runTour (tsp : List City → Option Tour) (cities : List City)
    (opt : Option (Tour → Tour)) : Option Tour :=
  match opt with
  | none => tsp cities
  | some o =>
    match tsp cities with
    | none => none
    | some t0 => if valid_tour t0 cities then some (o t0) else none

theorem all_results_append_self (h : History) (cities : List City) (res : ResultR) :
    all_results_append h cities res cities = h cities ++ [res] := by
  unfold all_results_append
  rw [if_pos rfl]

end Run

/-- Claim C10: run appends the new Result to all_results[cities] before
asserting valid_tour, so when the constructed tour is invalid the run
aborts with the assertion error and the invalid Result is already
recorded: the history at cities has grown by the earlier records of this
run plus the invalid Result itself. -/
theorem run_appends_before_assert (tsp : List City → Option Tour) (cities : List City)
    (opt : Option (Tour → Tour)) (history : History) (tour : Tour)
    (hT : runTour tsp cities opt = some tour)
    (hInvalid : valid_tour tour cities = false) :
    (run tsp cities opt history).2 = Except.error RunErr.assertFailed ∧
    ∃ pre, (run tsp cities opt history).1 cities =
      history cities ++ pre ++ [ResultR.mk tour cities] := by
  rcases opt with _ | o
  · have htsp : tsp cities = some tour := hT
    have hrun : run tsp cities none history =
        (all_results_append history cities ⟨tour, cities⟩,
          Except.error RunErr.assertFailed) := by
      show run_base tsp cities history = _
      unfold run_base
      rw [htsp]
      show (if valid_tour tour cities then _ else _) = _
      rw [hInvalid]
      rfl
    rw [hrun]
    refine ⟨rfl, [], ?_⟩
    show all_results_append history cities ⟨tour, cities⟩ cities =
      history cities ++ [] ++ [ResultR.mk tour cities]
    rw [all_results_append_self, List.append_nil]
  · rcases h0 : tsp cities with _ | t0
    · rw [runTour, h0] at hT
      cases hT
    · rw [runTour, h0] at hT
      have hT2 : (if valid_tour t0 cities = true then some (o t0) else none) =
          some tour := hT
      rcases hv0 : valid_tour t0 cities with _ | _
      · rw [hv0] at hT2
        simp at hT2
      · rw [hv0] at hT2
        have htour : o t0 = tour := by simpa using hT2
        have hbase : run_base tsp cities history =
            (all_results_append history cities ⟨t0, cities⟩, Except.ok ⟨t0, cities⟩) := by
          unfold run_base
          rw [h0]
          show (if valid_tour t0 cities then _ else _) = _
          rw [hv0]
          rfl
        have hrun : run tsp cities (some o) history =
            (all_results_append (all_results_append history cities ⟨t0, cities⟩)
              cities ⟨tour, cities⟩, Except.error RunErr.assertFailed) := by
          show (match run_base tsp cities history with
            | (h1, Except.error e) => (h1, Except.error e)
            | (h1, Except.ok res0) =>
              let tour := o res0.tourR
              let result : ResultR := ⟨tour, cities⟩
              let history2 := all_results_append h1 cities result
              if valid_tour tour cities then (history2, Except.ok result)
              else (history2, Except.error RunErr.assertFailed)) = _
          rw [hbase]
          show (let tour2 := o t0
            let result : ResultR := ⟨tour2, cities⟩
            let history2 := all_results_append
              (all_results_append history cities ⟨t0, cities⟩) cities result
            if valid_tour tour2 cities then (history2, Except.ok result)
            else (history2, Except.error RunErr.assertFailed)) = _
          rw [show (o t0) = tour from htour]
          show (if valid_tour tour cities then _ else _) = _
          rw [hInvalid]
          rfl
        rw [hrun]
        refine ⟨rfl, [ResultR.mk t0 cities], ?_⟩
        show all_results_append (all_results_append history cities ⟨t0, cities⟩)
            cities ⟨tour, cities⟩ cities =
          history cities ++ [ResultR.mk t0 cities] ++ [ResultR.mk tour cities]
        rw [all_results_append_self, all_results_append_self, List.append_assoc]

/-- Witness for claim C10 at a concrete instance: an algorithm returning
the empty tour on a one-city set fails the validity assert, the run
errors, and the recorded history ends with the invalid Result. -/
theorem run_appends_before_assert_witness :
    runTour (fun _ => some []) [City.mk 0 0] none = some [] ∧
    valid_tour [] [City.mk 0 0] = false ∧
    ((run (fun _ => some []) [City.mk 0 0] none (fun _ => [])).2 =
        Except.error RunErr.assertFailed ∧
      ∃ pre, (run (fun _ => some []) [City.mk 0 0] none (fun _ => [])).1 [City.mk 0 0] =
        (fun _ => ([] : List ResultR)) [City.mk 0 0] ++ pre ++
          [ResultR.mk [] [City.mk 0 0]]) :=
  ⟨rfl, by decide,
    run_appends_before_assert (fun _ => some []) [City.mk 0 0] none (fun _ => []) []
      rfl (by decide)⟩

/-- Claim C1, counterexample: a nonempty Cities set on which one of the
construction algorithms returns no tour at all: greedy_tsp on a one-city
set iterates over zero links and falls off its loop, returning None. -/
theorem greedy_single_city_cex :
    ([City.mk 0 0] : List City) ≠ [] ∧ greedy_tsp distSq [City.mk 0 0] = none :=
  ⟨by decide, greedy_tsp_singleton distSq (City.mk 0 0)⟩

/-- Claim C1 (amended): on every nonempty duplicate-free Cities set,
exhaustive_tsp, nearest_tsp, rep_nearest_tsp (for any repetition count
k ≥ 1), mst_tsp and divide_tsp (default split 7, enough recursion depth)
return a tour satisfying valid_tour; greedy_tsp does too once the set has
at least two cities, but returns None on a one-city set. -/
theorem constructions_valid {α : Type} [LinearOrderedCancelAddCommMonoid α]
    (d : City → City → α) (cities : List City)
    (hne : cities ≠ []) (hnd : cities.Nodup) :
    (∃ t, exhaustive_tsp d cities = some t ∧ valid_tour t cities = true) ∧
    (∃ t, nearest_tsp d cities none = some t ∧ valid_tour t cities = true) ∧
    (∀ k : ℤ, 1 ≤ k →
      ∃ t, rep_nearest_tsp d cities k = some t ∧ valid_tour t cities = true) ∧
    (∃ t, mst_tsp d cities = some t ∧ valid_tour t cities = true) ∧
    (∀ fuel : ℕ, cities.length < fuel →
      ∃ t, divide_tsp d fuel cities 7 = Except.ok t ∧ valid_tour t cities = true) ∧
    (2 ≤ cities.length →
      ∃ t, greedy_tsp d cities = some t ∧ valid_tour t cities = true) := by
  refine ⟨?_, ?_, ?_, ?_, ?_, ?_⟩
  · rcases hc : cities with _ | ⟨start, others⟩
    · exact absurd hc hne
    obtain ⟨te, hte, ⟨p, hp, hpe⟩, _⟩ := exhaustive_tsp_spec d start others
    exact ⟨te, hte, (valid_tour_iff_perm te _).mpr (by rw [hpe]; exact hp.cons start)⟩
  · obtain ⟨t, ht, hperm⟩ := nearest_tsp_valid d cities hne none (by intro s h; cases h)
    exact ⟨t, ht, (valid_tour_iff_perm t cities).mpr hperm⟩
  · intro k hk
    obtain ⟨t, ht, hperm⟩ := rep_nearest_tsp_valid d cities hne k hk
    exact ⟨t, ht, (valid_tour_iff_perm t cities).mpr hperm⟩
  · obtain ⟨t, ht, hperm⟩ := mst_tsp_valid d cities hnd hne
    exact ⟨t, ht, (valid_tour_iff_perm t cities).mpr hperm⟩
  · intro fuel hfuel
    obtain ⟨t, ht, hperm⟩ := divide_tsp_valid d cities.length cities fuel rfl hne hfuel
    exact ⟨t, ht, (valid_tour_iff_perm t cities).mpr hperm⟩
  · intro h2
    obtain ⟨t, ht, hperm⟩ := greedy_tsp_valid d cities hnd h2
    exact ⟨t, ht, (valid_tour_iff_perm t cities).mpr hperm⟩

/-- Witness for the amended claim C1 at a concrete two-city instance with
the squared-Euclidean distance. -/
theorem constructions_valid_witness :
    (([City.mk 0 0, City.mk 3 0] : List City) ≠ [] ∧
      ([City.mk 0 0, City.mk 3 0] : List City).Nodup) ∧
    ((∃ t, exhaustive_tsp distSq [City.mk 0 0, City.mk 3 0] = some t ∧
        valid_tour t [City.mk 0 0, City.mk 3 0] = true) ∧
      (∃ t, nearest_tsp distSq [City.mk 0 0, City.mk 3 0] none = some t ∧
        valid_tour t [City.mk 0 0, City.mk 3 0] = true) ∧
      (∀ k : ℤ, 1 ≤ k → ∃ t, rep_nearest_tsp distSq [City.mk 0 0, City.mk 3 0] k = some t ∧
        valid_tour t [City.mk 0 0, City.mk 3 0] = true) ∧
      (∃ t, mst_tsp distSq [City.mk 0 0, City.mk 3 0] = some t ∧
        valid_tour t [City.mk 0 0, City.mk 3 0] = true) ∧
      (∀ fuel : ℕ, ([City.mk 0 0, City.mk 3 0] : List City).length < fuel →
        ∃ t, divide_tsp distSq fuel [City.mk 0 0, City.mk 3 0] 7 = Except.ok t ∧
          valid_tour t [City.mk 0 0, City.mk 3 0] = true) ∧
      (2 ≤ ([City.mk 0 0, City.mk 3 0] : List City).length →
        ∃ t, greedy_tsp distSq [City.mk 0 0, City.mk 3 0] = some t ∧
          valid_tour t [City.mk 0 0, City.mk 3 0] = true)) :=
  ⟨⟨by decide, by decide⟩,
    constructions_valid distSq [City.mk 0 0, City.mk 3 0] (by decide) (by decide)⟩

end TSPSpec
